import Mathlib

/-!
Verification of the fsm library (github.com/orkestr8/fsm): a shallow
embedding of the compiled `spec`, the per-machine `instance` record, and
the runner's transaction handlers (`handleEvent`, `handleClockTick`,
`processDeadline`, `processVisitLimit`, `alloc`, `signal`), together with
theorems about their error taxonomy, flap/visit/TTL triggers and the
deadline-queue invariant.

Go maps are embedded as association lists (first match wins, which agrees
with Go maps since map literals cannot repeat keys); Go `int`/`int64`
become `Int`; an action callback is observable in this fragment only
through whether it returns a non-nil error, so `Action` is embedded as
`Bool` (`true` = the callback returns a non-nil error when invoked).
Channel sends are embedded as list appends: `raised` collects the events
posted to the transaction channel by internal raises, `errorsOut` the
errors delivered on the error channel (assuming a consumer is attached;
channel lossiness is a concurrency concern outside this embedding).
-/

namespace Fsm

/-- Go `type Signal int`. -/
abbrev Signal := Int

/-- Go `type Index int`. -/
abbrev Index := Int

/-- Go `type Tick int64`. -/
abbrev Tick := Int

/-- Go `type Time int64`. -/
abbrev Time := Int

/-- Go `type ID uint64`; embedded as `Nat`. -/
abbrev ID := Nat

/-- An action callback, embedded by its observable outcome at an
invocation: `true` means the callback returns a non-nil error. -/
abbrev Action := Bool

/-- First-match association-list lookup, the embedding of a Go map read. -/
def look {α β : Type} [DecidableEq α] (k : α) : List (α × β) → Option β
  | [] => none
  | (a, b) :: t => if a = k then some b else look k t

/-- Go `Expiry`: per-state TTL rule. -/
structure Expiry where
  TTL : Tick
  Raise : Signal
deriving DecidableEq, Repr

/-- Go `Limit`: per-state visit cap. -/
structure Limit where
  Value : Int
  Raise : Signal
deriving DecidableEq, Repr

/-- Go `State`: declarative state record. -/
structure State where
  Index : Fsm.Index
  Transitions : List (Signal × Fsm.Index) := []
  Actions : List (Signal × Action) := []
  Errors : List (Signal × Fsm.Index) := []
  TTL : Expiry := ⟨0, 0⟩
  Visit : Limit := ⟨0, 0⟩
deriving DecidableEq, Repr

/-- Go `Flap`: oscillation detector between a pair of states. -/
structure Flap where
  States : Fsm.Index × Fsm.Index
  Count : Int
  Raise : Signal
deriving DecidableEq, Repr

/-- The error taxonomy of the library (errors.go). Payloads follow the
fields actually populated at each raise site; `NoTransitions` carries the
spec in Go, which is dropped here as no code inspects it. -/
inductive Err where
  | UnknownState (i : Fsm.Index)
  | UnknownTransition (s : Signal) (st : Fsm.Index)
  | UnknownSignal (s : Signal) (st : Fsm.Index)
  | DuplicateState (i : Fsm.Index)
  | NilAction (s : Signal)
  | NoTransitions
  | UnknownFSM (id : ID)
deriving DecidableEq, Repr

/-- Go `spec`: the compiled, immutable machine shape. `signals` is the
set of known signals (a Go `map[Signal]Signal` used as a set); `flaps`
maps ordered state pairs to their flap record. -/
structure Spec where
  states : List (Fsm.Index × State) := []
  signals : List Signal := []
  flaps : List ((Fsm.Index × Fsm.Index) × Flap) := []
deriving DecidableEq, Repr

/-- spec.go `transition(current, signal)`: state lookup, then the
empty-transitions check, then global signal membership, then the
per-state transition entry; on success the next index and the optional
action for the signal. -/
def Spec.transition (s : Spec) (current : Fsm.Index) (signal : Signal) :
    Except Err (Fsm.Index × Option Action) :=
  match look current s.states with
  | none => .error (.UnknownState current)
  | some state =>
    if state.Transitions = [] then
      .error .NoTransitions
    else if signal ∈ s.signals then
      match look signal state.Transitions with
      | none => .error (.UnknownTransition signal state.Index)
      | some n => .ok (n, look signal state.Actions)
    else
      .error (.UnknownSignal signal 0)

/-- spec.go `expiry(current)`: the TTL rule if any; `none` when the
state's TTL is 0. -/
def Spec.expiry (s : Spec) (current : Fsm.Index) : Except Err (Option Expiry) :=
  match look current s.states with
  | none => .error (.UnknownState current)
  | some state => .ok (if 0 < state.TTL.TTL then some state.TTL else none)

/-- spec.go `visit(next)`: the visit cap if any; `none` when the state's
Visit.Value is 0. -/
def Spec.visit (s : Spec) (next : Fsm.Index) : Except Err (Option Limit) :=
  match look next s.states with
  | none => .error (.UnknownState next)
  | some state => .ok (if 0 < state.Visit.Value then some state.Visit else none)

/-- spec.go `error(current, signal)`: the Errors fallback used after an
action failure. -/
def Spec.error (s : Spec) (current : Fsm.Index) (signal : Signal) :
    Except Err Fsm.Index :=
  match look current s.states with
  | none => .error (.UnknownState current)
  | some state =>
    if signal ∈ s.signals then
      match look signal state.Errors with
      | none => .error (.UnknownTransition signal current)
      | some v => .ok v
    else
      .error (.UnknownSignal signal current)

/-- Modelled from the spec: `spec.flap(a, b)` (the flap lookup is absent
from src/; spec §4.1: "looks up the oscillation detector for the ordered
pair (a,b)", both orderings having been registered by the compiler). -/
def Spec.flap (s : Spec) (a b : Fsm.Index) : Option Flap :=
  look (a, b) s.flaps

/-- Modelled from the spec: `spec.compileFlapping(limits)` (absent from
src/; spec §4.1: for each Flap both orderings of the state pair are
indexed to the same record, and a flap whose states are unknown is a
fatal compile error). -/
def Spec.compileFlapping (s : Spec) (limits : List Flap) : Except Err Spec :=
  limits.foldlM
    (fun sp f =>
      if (look f.States.1 sp.states).isNone then
        .error (.UnknownState f.States.1)
      else if (look f.States.2 sp.states).isNone then
        .error (.UnknownState f.States.2)
      else
        .ok { sp with
              flaps := ((f.States.1, f.States.2), f)
                       :: ((f.States.2, f.States.1), f) :: sp.flaps })
    s

/-- Modelled from the spec: the per-instance flap record (the `flaps`
type is absent from src/; spec §3: "flap record (a bounded event log per
state-pair)"; §4.4: "record this transition in the instance's flap log
and count occurrences"). The log is kept as an occurrence count per
unordered state pair (§9: `(a,b)` and `(b,a)` share the same record);
the memory bound of the log is not observable here. -/
structure Flaps where
  counts : List ((Fsm.Index × Fsm.Index) × Nat) := []
deriving DecidableEq, Repr

/-- The unordered-pair key of the flap log. -/
def pkey (a b : Fsm.Index) : Fsm.Index × Fsm.Index :=
  if a ≤ b then (a, b) else (b, a)

/-- Modelled from the spec: occurrences recorded for the pair. -/
def Flaps.count (f : Flaps) (a b : Fsm.Index) : Nat :=
  (look (pkey a b) f.counts).getD 0

/-- Modelled from the spec: record one oscillation between `a` and `b`. -/
def Flaps.record (f : Flaps) (a b : Fsm.Index) : Flaps :=
  ⟨(pkey a b, f.count a b + 1) :: f.counts⟩

/-- Go `instance`: the per-FSM record (instance.go). `visits` is a total
function with default 0, matching Go map reads of missing keys; `data`
is `none` while no event has attached data. -/
structure Inst where
  id : ID := 0
  state : Fsm.Index := 0
  data : Option Int := none
  flaps : Flaps := ⟨[]⟩
  start : Time := 0
  deadline : Time := 0
  index : Int := -1
  visits : Fsm.Index → Int := fun _ => 0

/-- instance.go `update(next, now, ttl)`: bump the visit counter of
`next`, move to `next`, stamp the start time, and set the deadline to
`now + ttl` when `ttl > 0`, else clear it to 0. -/
def Inst.update (i : Inst) (next : Fsm.Index) (now : Time) (ttl : Tick) : Inst :=
  { i with
    visits := fun j => if j = next then i.visits next + 1 else i.visits j,
    state := next,
    start := now,
    deadline := if 0 < ttl then now + ttl else 0 }

/-- The runtime Options that influence the embedded behavior: the three
error-suppression flags (runner.go `handleError`). Diagnostic name
tables, buffer size, and the logger do not affect any modelled
observable and are omitted. -/
structure Options where
  IgnoreUndefinedStates : Bool := false
  IgnoreUndefinedTransitions : Bool := false
  IgnoreUndefinedSignals : Bool := false
deriving DecidableEq, Repr

/-- Go `event`: a signal targeted at an instance, with optional attached
data (runner.go). `data = none` embeds a nil `[]interface{}`. -/
structure Event where
  id : ID
  signal : Signal
  data : Option Int := none
deriving DecidableEq, Repr

/-- The runner's transaction-serialized state (runner.go `runner`):
logical time `now`, the next-Id counter, every allocated instance
(`store`, a total map with a zero-value default), the deadline queue as
the list of queued instance ids in deadline order, the internal raises
posted to the transaction channel (`raised`) and the errors delivered on
the error channel (`errorsOut`). -/
structure RState where
  spec : Spec := {}
  options : Options := {}
  running : Bool := true
  now : Time := 0
  next : ID := 0
  store : ID → Inst := fun _ => {}
  queue : List ID := []
  raised : List Event := []
  errorsOut : List Err := []

/-- Point update of the instance store. -/
def setInst (store : ID → Inst) (id : ID) (f : Inst → Inst) : ID → Inst :=
  fun j => if j = id then f (store j) else store j

/-- Modelled from the spec: sorted insertion into the deadline queue
(the DeadlineQueue implementation is absent from src/; spec §4.2: a
binary min-heap keyed by deadline ascending, abstracted here as a
deadline-sorted list, so `peek`/`dequeue` work on the head). -/
def qinsert (store : ID → Inst) (id : ID) : List ID → List ID
  | [] => [id]
  | x :: xs =>
    if (store id).deadline ≤ (store x).deadline then id :: x :: xs
    else x :: qinsert store id xs

/-- Modelled from the spec: the heap position at which `qinsert` places
`id` (spec §4.2: "`enqueue` sets the position"; heap sift movements after
insertion are not observable through any modelled behavior, only the
sign of the stored position is). -/
def qpos (store : ID → Inst) (id : ID) : List ID → Nat
  | [] => 0
  | x :: xs =>
    if (store id).deadline ≤ (store x).deadline then 0
    else qpos store id xs + 1

/-- runner.go `handleError`: drop the error when the matching
IgnoreUndefined* flag is set, otherwise deliver it on the error channel
(non-blocking send, embedded as an append assuming a consumer). -/
def handleError (s : RState) (e : Err) : RState :=
  match e with
  | .UnknownState _ =>
    if s.options.IgnoreUndefinedStates then s
    else { s with errorsOut := s.errorsOut ++ [e] }
  | .UnknownTransition _ _ =>
    if s.options.IgnoreUndefinedTransitions then s
    else { s with errorsOut := s.errorsOut ++ [e] }
  | .UnknownSignal _ _ =>
    if s.options.IgnoreUndefinedSignals then s
    else { s with errorsOut := s.errorsOut ++ [e] }
  | _ => { s with errorsOut := s.errorsOut ++ [e] }

/-- runner.go `raise`: post an internal event straight onto the
transaction channel; error (and no posting) when the signal is not
globally known. -/
def raise (s : RState) (id : ID) (sig : Signal) : RState × Option Err :=
  if sig ∈ s.spec.signals then
    ({ s with raised := s.raised ++ [⟨id, sig, none⟩] }, none)
  else
    (s, some (.UnknownSignal sig 0))

/-- Modelled from the spec: DeadlineQueue `enqueue` (§4.2) — insert the
instance at its deadline-sorted position and record that position on the
instance. -/
def qenqueue (s : RState) (id : ID) : RState :=
  { s with
    store := setInst s.store id
      (fun j => { j with index := (qpos s.store id s.queue : Int) }),
    queue := qinsert s.store id s.queue }

/-- Modelled from the spec: DeadlineQueue `remove` (§4.2) — drop the
instance from the queue and clear its stored position to -1. -/
def qremove (s : RState) (id : ID) : RState :=
  { s with
    store := setInst s.store id (fun j => { j with index := -1 }),
    queue := s.queue.erase id }

/-- Modelled from the spec: DeadlineQueue `update` (§4.2) — reposition a
queued instance after its deadline changed, keeping its stored position
current. -/
def qupdatePos (s : RState) (id : ID) : RState :=
  { s with
    store := setInst s.store id
      (fun j => { j with index := (qpos s.store id (s.queue.erase id) : Int) }),
    queue := qinsert s.store id (s.queue.erase id) }

/-- runner.go `processDeadline`, queue-reconciliation step: a queued
instance (`index > -1`) is repositioned when its new deadline is
positive and removed otherwise; an unqueued instance is enqueued exactly
when its new deadline is positive. -/
def reconcile (s : RState) (id : ID) : RState :=
  if -1 < (s.store id).index then
    if 0 < (s.store id).deadline then qupdatePos s id
    else qremove s id
  else if 0 < (s.store id).deadline then qenqueue s id
  else s

/-- runner.go `processDeadline`: read the TTL of `state` (error when the
state is unknown, before any mutation), apply `instance.update`, then
reconcile the deadline queue. -/
def processDeadline (s : RState) (id : ID) (state : Fsm.Index) :
    RState × Option Err :=
  match s.spec.expiry state with
  | .error e => (s, some e)
  | .ok oexp =>
    let ttl : Tick := match oexp with
      | some exp => exp.TTL
      | none => 0
    (reconcile { s with store := setInst s.store id (fun i => i.update state s.now ttl) } id,
     none)

/-- runner.go `processVisitLimit`: when the post-transition state has a
visit cap and the instance's visit count equals the cap value, raise the
cap's signal (the result of the raise is discarded, as in the source). -/
def processVisitLimit (s : RState) (id : ID) (state : Fsm.Index) :
    RState × Option Err :=
  match s.spec.visit state with
  | .error e => (s, some e)
  | .ok none => (s, none)
  | .ok (some limit) =>
    if 0 < limit.Value ∧ (s.store id).visits state = limit.Value then
      ((raise s id limit.Raise).1, none)
    else
      (s, none)

/-- runner.go `handleEvent`, data-attachment step: `instance.data` is
overwritten exactly when the event carries data. -/
def attachData (s : RState) (id : ID) (d : Option Int) : RState :=
  match d with
  | some v => { s with store := setInst s.store id (fun i => { i with data := some v }) }
  | none => s

/-- runner.go `handleEvent`, action step: when a declared action is
invoked and returns a non-nil error, redirect the target to the Errors
fallback; when no fallback is declared, classify the lookup failure
through `handleError` and keep the originally computed target. -/
def actionTarget (s : RState) (_id : ID) (sig : Signal)
    (current next0 : Fsm.Index) (action : Option Action) :
    RState × Fsm.Index :=
  match action with
  | some true =>
    match s.spec.error current sig with
    | .error e => (handleError s e, next0)
    | .ok alternate => (s, alternate)
  | _ => (s, next0)

/-- runner.go `handleEvent`, tail: process the deadline of the landed
state (its error aborts) and then its visit limit. -/
def finishTransition (s : RState) (id : ID) (n : Fsm.Index) :
    RState × Option Err :=
  match processDeadline s id n with
  | (s3, some e) => (s3, some e)
  | (s3, none) => processVisitLimit s3 id n

/-- runner.go `handleEvent` after the flap branch: attach the event's
data if any, invoke the action (possibly redirecting the target), then
process the deadline and the visit limit of the final state. -/
def postFlap (s : RState) (id : ID) (ev : Event) (current next0 : Fsm.Index)
    (action : Option Action) : RState × Option Err :=
  finishTransition
    (actionTarget (attachData s id ev.data) id ev.signal current next0 action).1
    id
    (actionTarget (attachData s id ev.data) id ev.signal current next0 action).2

/-- runner.go `handleEvent`, flap-recording step: record the oscillation
`(c, n)` in the instance's flap log (modelled from the spec). -/
def flapRecord (s : RState) (id : ID) (c n : Fsm.Index) : RState :=
  { s with
    store := setInst s.store id (fun i => { i with flaps := i.flaps.record c n }) }

/-- runner.go `handleEvent`: look up the transition (returning any of the
four lookup errors untouched), run flap detection — recording the
oscillation and, at the threshold, raising the flap's signal and
returning without completing the transition — and otherwise continue
with `postFlap`. The flap log operations are modelled from the spec. -/
def handleEvent (s : RState) (id : ID) (ev : Event) : RState × Option Err :=
  match s.spec.transition (s.store id).state ev.signal with
  | .error e => (s, some e)
  | .ok (next, action) =>
    match s.spec.flap (s.store id).state next with
    | some limit =>
      if 0 < limit.Count then
        if limit.Count ≤
            ((((flapRecord s id (s.store id).state next).store id).flaps.count
                (s.store id).state next : Int)) then
          ((raise (flapRecord s id (s.store id).state next) id limit.Raise).1, none)
        else
          postFlap (flapRecord s id (s.store id).state next) id ev
            (s.store id).state next action
      else
        postFlap s id ev (s.store id).state next action
    | none => postFlap s id ev (s.store id).state next action

/-- runner.go `handleClockTick` after the tick, recursing over the
deadline queue: stop at the first head whose deadline is in the future;
otherwise dequeue it (clearing its heap position, modelled from the
spec), raise its state's TTL signal when its deadline is still positive
(returning the expiry lookup error, if any, before the sentinel reset),
and reset its deadline and heap index to -1. -/
def drain (spec : Spec) (now : Time) :
    (ID → Inst) → List Event → List ID →
    (ID → Inst) × List Event × List ID × Option Err
  | store, raised, [] => (store, raised, [], none)
  | store, raised, h :: rest =>
    if now < (store h).deadline then
      (store, raised, h :: rest, none)
    else
      let st1 := setInst store h (fun i => { i with index := -1 })
      if 0 < (st1 h).deadline then
        match spec.expiry (st1 h).state with
        | .error e => (st1, raised, rest, some e)
        | .ok oexp =>
          let raised1 := match oexp with
            | some exp =>
              if exp.Raise ∈ spec.signals then raised ++ [⟨h, exp.Raise, none⟩]
              else raised
            | none => raised
          let st2 := setInst st1 h (fun i => { i with deadline := -1, index := -1 })
          drain spec now st2 raised1 rest
      else
        let st2 := setInst st1 h (fun i => { i with deadline := -1, index := -1 })
        drain spec now st2 raised rest

/-- runner.go `handleClockTick`: advance `now` by one, then drain every
queue entry whose deadline is at or before the new time. -/
def handleClockTick (s : RState) : RState × Option Err :=
  let now := s.now + 1
  let r := drain s.spec now s.store s.raised s.queue
  ({ s with now := now, store := r.1, raised := r.2.1, queue := r.2.2.1 }, r.2.2.2)

/-- runner.go `alloc`, the freshly created instance: initial state, a
visit-count seed of 1 for it, no data, no deadline, heap index -1. -/
def allocInst (id : ID) (initial : Fsm.Index) : Inst :=
  { id := id, state := initial, index := -1,
    visits := fun j => if j = initial then 1 else 0 }

/-- runner.go `alloc`, the runner state right after creating the fresh
instance: the id counter advanced and the instance stored. -/
def allocState (s : RState) (initial : Fsm.Index) : RState :=
  { s with
    next := s.next + 1,
    store := fun j => if j = s.next then allocInst s.next initial else s.store j }

/-- runner.go `alloc`: take the next id (the counter advances even on
failure), create the instance via `allocInst`, then run
`processDeadline` on the initial state; its error aborts the
allocation. -/
def alloc (s : RState) (initial : Fsm.Index) : RState × Option ID × Option Err :=
  match processDeadline (allocState s initial) s.next initial with
  | (s2, some e) => (s2, none, some e)
  | (s2, none) => (s2, some s.next, none)

/-- runner.go `signal` (reached from `FSM.Signal`): reject a signal that
is not globally known, otherwise hand the event (with its optional data)
to the runner's event channel and return immediately; the returned event
is the one posted, the transition itself has not run. -/
def rsignal (s : RState) (inst : Inst) (sig : Signal) (data : Option Int) :
    Option Err × Option Event :=
  if sig ∈ s.spec.signals then
    (none, some ⟨inst.id, sig, data⟩)
  else
    (some (.UnknownSignal sig 0), none)

/-- machines.go `New`: delegates directly to `runner.alloc`; the
`running` flag of the runner is not consulted. -/
def machinesNew (s : RState) (initial : Fsm.Index) :
    RState × Option ID × Option Err :=
  alloc s initial

/-- The state is defined and has a positive TTL. -/
def ttlPosB (sp : Spec) (st : Fsm.Index) : Bool :=
  match look st sp.states with
  | some stt => decide (0 < stt.TTL.TTL)
  | none => false

/-- The state is defined, has a positive TTL, and its TTL raise signal
is globally known (so an expiry raise actually posts a transaction). -/
def ttlArmedB (sp : Spec) (st : Fsm.Index) : Bool :=
  match look st sp.states with
  | some stt => decide (0 < stt.TTL.TTL) && decide (stt.TTL.Raise ∈ sp.signals)
  | none => false

/-- The TTL raise signal of a state (0 for an undefined state). -/
def ttlRaise (sp : Spec) (st : Fsm.Index) : Signal :=
  match look st sp.states with
  | some stt => stt.TTL.Raise
  | none => 0

/-- The deadline-queue invariant (spec §8): queued ids are distinct and
allocated, a queued instance carries a nonnegative heap index, a
positive deadline and a state with a positive TTL, and an unqueued
instance's heap index is -1. -/
def Qinv (s : RState) : Prop :=
  s.queue.Nodup
  ∧ (∀ id ∈ s.queue, id < s.next)
  ∧ (∀ id ∈ s.queue,
      0 ≤ (s.store id).index ∧ 0 < (s.store id).deadline
        ∧ ttlPosB s.spec (s.store id).state = true)
  ∧ (∀ id, id ∉ s.queue → (s.store id).index = -1)

/-- The flap branch of `handleEvent` halts the transition: a flap record
for `(c, n)` with a positive count whose threshold is reached by the
count recorded for this very event. -/
def flapHalts (s : RState) (id : ID) (c n : Fsm.Index) : Bool :=
  match s.spec.flap c n with
  | some limit =>
    if 0 < limit.Count then
      decide (limit.Count ≤
        ((((flapRecord s id c n).store id).flaps.count c n : Int)))
    else false
  | none => false

/-- The state `handleEvent` continues from after the flap branch: the
flap log has been updated exactly when a flap with a positive count
applies to `(c, n)`. -/
def flapBase (s : RState) (id : ID) (c n : Fsm.Index) : RState :=
  match s.spec.flap c n with
  | some limit => if 0 < limit.Count then flapRecord s id c n else s
  | none => s

/-- The spec declares a usable visit cap for the state: when the state
is defined with a positive Visit.Value, its raise signal is globally
known (guaranteed by spec.go `compile` for built specs). -/
def visitRaiseOkB (sp : Spec) (n : Fsm.Index) : Bool :=
  match look n sp.states with
  | some st =>
    if 0 < st.Visit.Value then decide (st.Visit.Raise ∈ sp.signals) else true
  | none => true

/-! ### Concrete inputs used by witnesses and counterexamples -/

/-- A four-state compiled-shape spec: state 0 has a failing action on
signal 1 with an Errors fallback to state 2, state 1 has a TTL, state 2
has a visit cap. -/
def stA0 : State :=
  { Index := 0, Transitions := [(1, 1), (2, 2), (3, 3)],
    Actions := [(1, true)], Errors := [(1, 2)] }

def stA1 : State := { Index := 1, Transitions := [(4, 0)], TTL := ⟨2, 4⟩ }

def stA2 : State :=
  { Index := 2, Transitions := [(3, 3), (1, 1)], Visit := ⟨1, 3⟩ }

def stA3 : State := { Index := 3, Transitions := [(1, 1)] }

def specA : Spec :=
  { states := [(0, stA0), (1, stA1), (2, stA2), (3, stA3)],
    signals := [1, 2, 3, 4] }

def instA : Inst :=
  { id := 0, state := 0, index := -1,
    visits := fun j => if j = 0 then 1 else 0 }

def sA : RState := { spec := specA, next := 1, store := fun _ => instA }

def instC5 : Inst :=
  { id := 0, state := 2, index := -1,
    visits := fun j => if j = 2 then 1 else 0 }

def sC5 : RState := { spec := specA, next := 1, store := fun _ => instC5 }

/-- A stale deadline-queue entry: deadline cleared to 0 while queued. -/
def instT0 : Inst :=
  { id := 0, state := 1, deadline := 0, index := 0, visits := fun _ => 0 }

def instT1 : Inst :=
  { id := 1, state := 1, deadline := 1, index := 1, visits := fun _ => 0 }

def sT : RState :=
  { spec := specA, next := 2, queue := [0, 1],
    store := fun j => if j = 0 then instT0 else if j = 1 then instT1 else {} }

def sQ : RState :=
  { spec := specA, next := 2, queue := [1],
    store := fun j => if j = 1 then instT1 else {} }

/-- Two oscillating states with one known signal. -/
def spec4base : Spec :=
  { states := [(0, { Index := 0, Transitions := [(5, 1)] }),
               (1, { Index := 1, Transitions := [(5, 0)] })],
    signals := [5] }

/-- A flap whose raise signal 999 is not a known signal of the spec. -/
def flap4 : Flap := { States := (0, 1), Count := 1, Raise := 999 }

def spec4 : Spec :=
  match spec4base.compileFlapping [flap4] with
  | .ok sp => sp
  | .error _ => spec4base

def inst4 : Inst :=
  { id := 0, state := 0, index := -1,
    visits := fun j => if j = 0 then 1 else 0 }

def s4 : RState := { spec := spec4, next := 1, store := fun _ => inst4 }

/-- The same two oscillating states with the flap raise signal 9 known. -/
def specFbase : Spec :=
  { states := [(0, { Index := 0, Transitions := [(5, 1)] }),
               (1, { Index := 1, Transitions := [(5, 0)] })],
    signals := [5, 9] }

def flapF : Flap := { States := (0, 1), Count := 1, Raise := 9 }

def specF : Spec :=
  match specFbase.compileFlapping [flapF] with
  | .ok sp => sp
  | .error _ => specFbase

def sF : RState := { spec := specF, next := 1, store := fun _ => inst4 }

/-- One self-looping state with TTL 0. -/
def spec6 : Spec :=
  { states := [(0, { Index := 0, Transitions := [(3, 0)] })], signals := [3] }

def s6 : RState := { spec := spec6 }

/-- A runner state whose `running` flag is false (after Stop). -/
def s9 : RState := { spec := spec6, running := false }

/-! ### Basic lemmas about the embedding -/

theorem look_mem {α β : Type} [DecidableEq α] (k : α) (b : β) :
    ∀ l : List (α × β), look k l = some b → (k, b) ∈ l := by
  intro l
  induction l with
  | nil => intro h; simp [look] at h
  | cons p t ih =>
    intro h
    obtain ⟨a, c⟩ := p
    by_cases hak : a = k
    · subst hak
      rw [look, if_pos rfl] at h
      obtain rfl : c = b := by injection h
      exact List.mem_cons_self _ _
    · rw [look, if_neg hak] at h
      exact List.mem_cons_of_mem _ (ih h)

theorem setInst_same (store : ID → Inst) (id : ID) (f : Inst → Inst) :
    setInst store id f id = f (store id) := by
  simp [setInst]

theorem setInst_other {store : ID → Inst} {id j : ID} (f : Inst → Inst)
    (h : j ≠ id) : setInst store id f j = store j := by
  simp [setInst, h]

theorem update_index (i : Inst) (n : Fsm.Index) (now : Time) (ttl : Tick) :
    (i.update n now ttl).index = i.index := rfl

theorem update_state (i : Inst) (n : Fsm.Index) (now : Time) (ttl : Tick) :
    (i.update n now ttl).state = n := rfl

theorem update_deadline (i : Inst) (n : Fsm.Index) (now : Time) (ttl : Tick) :
    (i.update n now ttl).deadline = if 0 < ttl then now + ttl else 0 := rfl

theorem update_data (i : Inst) (n : Fsm.Index) (now : Time) (ttl : Tick) :
    (i.update n now ttl).data = i.data := rfl

theorem mem_qinsert {store : ID → Inst} {id : ID} :
    ∀ {q : List ID} {a : ID}, a ∈ qinsert store id q ↔ a = id ∨ a ∈ q := by
  intro q
  induction q with
  | nil => intro a; simp [qinsert]
  | cons x xs ih =>
    intro a
    rw [qinsert]
    by_cases hd : (store id).deadline ≤ (store x).deadline
    · rw [if_pos hd]
      simp
    · rw [if_neg hd]
      simp only [List.mem_cons, ih]
      tauto

theorem nodup_qinsert {store : ID → Inst} {id : ID} :
    ∀ {q : List ID}, id ∉ q → q.Nodup → (qinsert store id q).Nodup := by
  intro q
  induction q with
  | nil => intro _ _; simp [qinsert]
  | cons x xs ih =>
    intro hid hn
    rw [qinsert]
    rw [List.nodup_cons] at hn
    by_cases hd : (store id).deadline ≤ (store x).deadline
    · rw [if_pos hd]
      refine List.nodup_cons.mpr ⟨?_, List.nodup_cons.mpr hn⟩
      exact hid
    · rw [if_neg hd]
      refine List.nodup_cons.mpr ⟨?_, ih (fun hm => hid (List.mem_cons_of_mem _ hm)) hn.2⟩
      intro hx
      rcases mem_qinsert.mp hx with h | h
      · exact hid (h ▸ List.mem_cons_self _ _)
      · exact hn.1 h

theorem expiry_of_look {sp : Spec} {c : Fsm.Index} {stt : State}
    (h : look c sp.states = some stt) :
    sp.expiry c = .ok (if 0 < stt.TTL.TTL then some stt.TTL else none) := by
  simp [Spec.expiry, h]

theorem expiry_of_ttlPos {sp : Spec} {c : Fsm.Index}
    (h : ttlPosB sp c = true) :
    ∃ stt, look c sp.states = some stt ∧ 0 < stt.TTL.TTL
      ∧ sp.expiry c = .ok (some stt.TTL) := by
  rw [ttlPosB] at h
  cases hl : look c sp.states with
  | none => rw [hl] at h; simp at h
  | some stt =>
    rw [hl] at h
    have hpos : 0 < stt.TTL.TTL := by simpa using h
    exact ⟨stt, rfl, hpos, by simp [Spec.expiry, hl, hpos]⟩

theorem expiry_of_ttlArmed {sp : Spec} {c : Fsm.Index}
    (h : ttlArmedB sp c = true) :
    ∃ stt, look c sp.states = some stt ∧ 0 < stt.TTL.TTL
      ∧ stt.TTL.Raise ∈ sp.signals ∧ sp.expiry c = .ok (some stt.TTL)
      ∧ ttlRaise sp c = stt.TTL.Raise := by
  rw [ttlArmedB] at h
  cases hl : look c sp.states with
  | none => rw [hl] at h; simp at h
  | some stt =>
    rw [hl] at h
    simp only [Bool.and_eq_true, decide_eq_true_eq] at h
    exact ⟨stt, rfl, h.1, h.2, by simp [Spec.expiry, hl, h.1], by simp [ttlRaise, hl]⟩

theorem transition_ok {s : Spec} {c : Fsm.Index} {g : Signal}
    {n : Fsm.Index} {a : Option Action}
    (h : s.transition c g = .ok (n, a)) :
    ∃ st, look c s.states = some st ∧ st.Transitions ≠ [] ∧ g ∈ s.signals
      ∧ look g st.Transitions = some n ∧ a = look g st.Actions := by
  rw [Spec.transition] at h
  split at h
  · simp at h
  · rename_i st hl
    split at h
    · simp at h
    · rename_i he
      split at h
      · rename_i hg
        split at h
        · simp at h
        · rename_i m hm
          simp only [Except.ok.injEq, Prod.mk.injEq] at h
          obtain ⟨rfl, rfl⟩ := h
          exact ⟨st, hl, he, hg, hm, rfl⟩
      · simp at h

/-! ### Invariant-preservation lemmas for the deadline queue -/

theorem ttlPosB_expiry {sp : Spec} {st : Fsm.Index} {exp : Expiry}
    (h : sp.expiry st = .ok (some exp)) : ttlPosB sp st = true := by
  rw [Spec.expiry] at h
  split at h
  · simp at h
  · rename_i stt hl
    simp only [Except.ok.injEq] at h
    rw [ttlPosB, hl]
    by_cases hp : 0 < stt.TTL.TTL
    · simp [hp]
    · rw [if_neg hp] at h; simp at h

theorem qenqueue_qinv {s : RState} {id : ID}
    (hn : s.queue.Nodup) (hlt : ∀ a ∈ s.queue, a < s.next)
    (h3 : ∀ a ∈ s.queue, a ≠ id →
      0 ≤ (s.store a).index ∧ 0 < (s.store a).deadline
        ∧ ttlPosB s.spec (s.store a).state = true)
    (h4 : ∀ j, j ∉ s.queue → j ≠ id → (s.store j).index = -1)
    (hid : id < s.next) (hnotin : id ∉ s.queue)
    (hdl : 0 < (s.store id).deadline)
    (httl : ttlPosB s.spec (s.store id).state = true) :
    Qinv (qenqueue s id) := by
  rw [Qinv, qenqueue]
  dsimp only
  refine ⟨nodup_qinsert hnotin hn, ?_, ?_, ?_⟩
  · intro a ha
    rcases mem_qinsert.mp ha with rfl | ha'
    · exact hid
    · exact hlt a ha'
  · intro a ha
    rcases mem_qinsert.mp ha with rfl | ha'
    · rw [setInst_same]
      exact ⟨Int.natCast_nonneg _, hdl, httl⟩
    · have hne : a ≠ id := fun hh => hnotin (hh ▸ ha')
      rw [setInst_other _ hne]
      exact h3 a ha' hne
  · intro j hj
    have hj1 : j ≠ id := fun hh => hj (hh ▸ mem_qinsert.mpr (Or.inl rfl))
    have hj2 : j ∉ s.queue := fun hm => hj (mem_qinsert.mpr (Or.inr hm))
    rw [setInst_other _ hj1]
    exact h4 j hj2 hj1

theorem qremove_qinv {s : RState} {id : ID}
    (hn : s.queue.Nodup) (hlt : ∀ a ∈ s.queue, a < s.next)
    (h3 : ∀ a ∈ s.queue, a ≠ id →
      0 ≤ (s.store a).index ∧ 0 < (s.store a).deadline
        ∧ ttlPosB s.spec (s.store a).state = true)
    (h4 : ∀ j, j ∉ s.queue → j ≠ id → (s.store j).index = -1) :
    Qinv (qremove s id) := by
  rw [Qinv, qremove]
  dsimp only
  refine ⟨hn.erase _, ?_, ?_, ?_⟩
  · intro a ha
    exact hlt a (List.mem_of_mem_erase ha)
  · intro a ha
    have hme := (List.Nodup.mem_erase_iff hn).mp ha
    rw [setInst_other _ hme.1]
    exact h3 a hme.2 hme.1
  · intro j hj
    by_cases hje : j = id
    · subst hje
      rw [setInst_same]
    · rw [setInst_other _ hje]
      have hjq : j ∉ s.queue :=
        fun hm => hj ((List.Nodup.mem_erase_iff hn).mpr ⟨hje, hm⟩)
      exact h4 j hjq hje

theorem qupdatePos_qinv {s : RState} {id : ID}
    (hn : s.queue.Nodup) (hlt : ∀ a ∈ s.queue, a < s.next)
    (h3 : ∀ a ∈ s.queue, a ≠ id →
      0 ≤ (s.store a).index ∧ 0 < (s.store a).deadline
        ∧ ttlPosB s.spec (s.store a).state = true)
    (h4 : ∀ j, j ∉ s.queue → j ≠ id → (s.store j).index = -1)
    (hid : id < s.next)
    (hdl : 0 < (s.store id).deadline)
    (httl : ttlPosB s.spec (s.store id).state = true) :
    Qinv (qupdatePos s id) := by
  have hni : id ∉ s.queue.erase id :=
    fun hm => ((List.Nodup.mem_erase_iff hn).mp hm).1 rfl
  rw [Qinv, qupdatePos]
  dsimp only
  refine ⟨nodup_qinsert hni (hn.erase _), ?_, ?_, ?_⟩
  · intro a ha
    rcases mem_qinsert.mp ha with rfl | ha'
    · exact hid
    · exact hlt a (List.mem_of_mem_erase ha')
  · intro a ha
    rcases mem_qinsert.mp ha with rfl | ha'
    · rw [setInst_same]
      exact ⟨Int.natCast_nonneg _, hdl, httl⟩
    · have hme := (List.Nodup.mem_erase_iff hn).mp ha'
      rw [setInst_other _ hme.1]
      exact h3 a hme.2 hme.1
  · intro j hj
    have hj1 : j ≠ id := fun hh => hj (hh ▸ mem_qinsert.mpr (Or.inl rfl))
    have hj2 : j ∉ s.queue :=
      fun hm => hj (mem_qinsert.mpr (Or.inr ((List.Nodup.mem_erase_iff hn).mpr ⟨hj1, hm⟩)))
    rw [setInst_other _ hj1]
    exact h4 j hj2 hj1

theorem reconcile_qinv {s : RState} {id : ID}
    (hn : s.queue.Nodup) (hlt : ∀ a ∈ s.queue, a < s.next)
    (h3 : ∀ a ∈ s.queue, a ≠ id →
      0 ≤ (s.store a).index ∧ 0 < (s.store a).deadline
        ∧ ttlPosB s.spec (s.store a).state = true)
    (h4 : ∀ j, j ∉ s.queue → j ≠ id → (s.store j).index = -1)
    (hid : id < s.next)
    (hm0 : id ∈ s.queue → 0 ≤ (s.store id).index)
    (hm1 : id ∉ s.queue → (s.store id).index = -1)
    (hpos : 0 < (s.store id).deadline → ttlPosB s.spec (s.store id).state = true) :
    Qinv (reconcile s id) := by
  rw [reconcile]
  by_cases hix : -1 < (s.store id).index
  · rw [if_pos hix]
    by_cases hdl : 0 < (s.store id).deadline
    · rw [if_pos hdl]
      exact qupdatePos_qinv hn hlt h3 h4 hid hdl (hpos hdl)
    · rw [if_neg hdl]
      exact qremove_qinv hn hlt h3 h4
  · rw [if_neg hix]
    have hnotin : id ∉ s.queue := by
      intro hm
      exact hix (lt_of_lt_of_le (by norm_num) (hm0 hm))
    by_cases hdl : 0 < (s.store id).deadline
    · rw [if_pos hdl]
      exact qenqueue_qinv hn hlt h3 h4 hid hnotin hdl (hpos hdl)
    · rw [if_neg hdl]
      refine ⟨hn, hlt, ?_, ?_⟩
      · intro a ha
        have hne : a ≠ id := fun hh => hnotin (hh ▸ ha)
        exact h3 a ha hne
      · intro j hj
        by_cases hje : j = id
        · subst hje
          exact hm1 hj
        · exact h4 j hj hje

theorem processDeadline_qinv {s : RState} {id : ID} {st : Fsm.Index}
    (h : Qinv s) (hid : id < s.next) :
    Qinv (processDeadline s id st).1 := by
  obtain ⟨hn, hlt, h3, h4⟩ := h
  rw [processDeadline]
  cases hexp : s.spec.expiry st with
  | error e => exact ⟨hn, hlt, h3, h4⟩
  | ok oexp =>
    refine reconcile_qinv hn hlt ?_ ?_ hid ?_ ?_ ?_
    · intro a ha hne
      dsimp only
      rw [setInst_other _ hne]
      exact h3 a ha
    · intro j hj hne
      dsimp only
      rw [setInst_other _ hne]
      exact h4 j hj
    · intro hm
      dsimp only
      rw [setInst_same, update_index]
      exact (h3 id hm).1
    · intro hm
      dsimp only
      rw [setInst_same, update_index]
      exact h4 id hm
    · intro hdl
      dsimp only at hdl ⊢
      rw [setInst_same, update_state]
      rw [setInst_same, update_deadline] at hdl
      cases oexp with
      | none =>
        simp only [lt_irrefl, if_neg] at hdl
        simp at hdl
      | some exp =>
        by_cases hpt : (0 : Int) < exp.TTL
        · exact ttlPosB_expiry hexp
        · rw [if_neg (by simpa using hpt)] at hdl
          simp at hdl

theorem handleError_frame (s : RState) (e : Err) :
    (handleError s e).queue = s.queue ∧ (handleError s e).store = s.store
      ∧ (handleError s e).next = s.next ∧ (handleError s e).spec = s.spec := by
  cases e <;> simp only [handleError] <;> (try split) <;> simp

theorem raise_frame (s : RState) (id : ID) (sig : Signal) :
    ((raise s id sig).1).queue = s.queue ∧ ((raise s id sig).1).store = s.store
      ∧ ((raise s id sig).1).next = s.next ∧ ((raise s id sig).1).spec = s.spec
      ∧ ((raise s id sig).1).errorsOut = s.errorsOut
      ∧ ((raise s id sig).1).options = s.options
      ∧ ((raise s id sig).1).now = s.now := by
  rw [raise]
  split <;> exact ⟨rfl, rfl, rfl, rfl, rfl, rfl, rfl⟩

theorem processVisitLimit_frame (s : RState) (id : ID) (st : Fsm.Index) :
    ((processVisitLimit s id st).1).queue = s.queue
      ∧ ((processVisitLimit s id st).1).store = s.store
      ∧ ((processVisitLimit s id st).1).next = s.next
      ∧ ((processVisitLimit s id st).1).spec = s.spec
      ∧ ((processVisitLimit s id st).1).errorsOut = s.errorsOut
      ∧ ((processVisitLimit s id st).1).options = s.options
      ∧ ((processVisitLimit s id st).1).now = s.now := by
  rw [processVisitLimit]
  split
  · exact ⟨rfl, rfl, rfl, rfl, rfl, rfl, rfl⟩
  · exact ⟨rfl, rfl, rfl, rfl, rfl, rfl, rfl⟩
  · split
    · exact raise_frame _ _ _
    · exact ⟨rfl, rfl, rfl, rfl, rfl, rfl, rfl⟩

theorem qinv_of_frame {s s' : RState} (hq : s'.queue = s.queue)
    (hst : s'.store = s.store) (hnx : s'.next = s.next) (hsp : s'.spec = s.spec)
    (h : Qinv s) : Qinv s' := by
  obtain ⟨h1, h2, h3, h4⟩ := h
  rw [Qinv, hq, hst, hnx, hsp]
  exact ⟨h1, h2, h3, h4⟩

theorem finishTransition_qinv {s : RState} {id : ID} {n : Fsm.Index}
    (h : Qinv s) (hid : id < s.next) :
    Qinv (finishTransition s id n).1 := by
  have hpd := @processDeadline_qinv _ _ n h hid
  rw [finishTransition]
  cases hres : processDeadline s id n with
  | mk s3 oe =>
    rw [hres] at hpd
    cases oe with
    | some e => exact hpd
    | none =>
      have hf := processVisitLimit_frame s3 id n
      exact qinv_of_frame hf.1 hf.2.1 hf.2.2.1 hf.2.2.2.1 hpd

theorem qinv_store_frame {s : RState} {f : Inst → Inst} {id : ID}
    (hfi : ∀ i, (f i).index = i.index ∧ (f i).deadline = i.deadline
      ∧ (f i).state = i.state)
    (h : Qinv s) : Qinv { s with store := setInst s.store id f } := by
  obtain ⟨h1, h2, h3, h4⟩ := h
  refine ⟨h1, h2, ?_, ?_⟩
  · intro a ha
    dsimp only at ha ⊢
    by_cases hae : a = id
    · subst hae
      rw [setInst_same, (hfi _).1, (hfi _).2.1, (hfi _).2.2]
      exact h3 a ha
    · rw [setInst_other _ hae]
      exact h3 a ha
  · intro j hj
    dsimp only at hj ⊢
    by_cases hje : j = id
    · subst hje
      rw [setInst_same, (hfi _).1]
      exact h4 j hj
    · rw [setInst_other _ hje]
      exact h4 j hj

theorem postFlap_qinv {s : RState} {id : ID} {ev : Event}
    {c n0 : Fsm.Index} {a : Option Action}
    (h : Qinv s) (hid : id < s.next) :
    Qinv (postFlap s id ev c n0 a).1 := by
  have hda : Qinv (attachData s id ev.data)
      ∧ (attachData s id ev.data).next = s.next := by
    cases hdt : ev.data with
    | none => simp only [attachData]; exact ⟨h, trivial⟩
    | some v =>
      simp only [attachData]
      exact ⟨qinv_store_frame (fun i => ⟨rfl, rfl, rfl⟩) h, trivial⟩
  have hat : Qinv (actionTarget (attachData s id ev.data) id ev.signal c n0 a).1
      ∧ (actionTarget (attachData s id ev.data) id ev.signal c n0 a).1.next = s.next := by
    cases a with
    | none => simp only [actionTarget]; exact ⟨hda.1, hda.2⟩
    | some b =>
      cases b with
      | false => simp only [actionTarget]; exact ⟨hda.1, hda.2⟩
      | true =>
        simp only [actionTarget]
        cases herr : (attachData s id ev.data).spec.error c ev.signal with
        | error e =>
          dsimp only
          have hf := handleError_frame (attachData s id ev.data) e
          exact ⟨qinv_of_frame hf.1 hf.2.1 hf.2.2.1 hf.2.2.2 hda.1,
                 hf.2.2.1.trans hda.2⟩
        | ok alternate =>
          dsimp only
          exact ⟨hda.1, hda.2⟩
  rw [postFlap]
  exact finishTransition_qinv hat.1 (hat.2 ▸ hid)

theorem handleEvent_qinv {s : RState} {id : ID} {ev : Event}
    (h : Qinv s) (hid : id < s.next) :
    Qinv (handleEvent s id ev).1 := by
  rw [handleEvent]
  cases htr : s.spec.transition (s.store id).state ev.signal with
  | error e => exact h
  | ok p =>
    obtain ⟨next, action⟩ := p
    dsimp only
    cases hfl : s.spec.flap (s.store id).state next with
    | none => exact postFlap_qinv h hid
    | some limit =>
      dsimp only
      have hq1 : Qinv (flapRecord s id (s.store id).state next) :=
        qinv_store_frame (fun i => ⟨rfl, rfl, rfl⟩) h
      by_cases hc : 0 < limit.Count
      · rw [if_pos hc]
        by_cases hcnt : limit.Count ≤
            ((((flapRecord s id (s.store id).state next).store id).flaps.count
                (s.store id).state next : Int))
        · rw [if_pos hcnt]
          have hf := raise_frame (flapRecord s id (s.store id).state next) id limit.Raise
          exact qinv_of_frame hf.1 hf.2.1 hf.2.2.1 hf.2.2.2.1 hq1
        · rw [if_neg hcnt]
          exact postFlap_qinv hq1 hid
      · rw [if_neg hc]
        exact postFlap_qinv h hid

theorem drain_qinv (spec : Spec) (now : Time) (nxt : ID) :
    ∀ (q : List ID) (store : ID → Inst) (raised : List Event),
      q.Nodup →
      (∀ a ∈ q, a < nxt) →
      (∀ a ∈ q, 0 ≤ (store a).index ∧ 0 < (store a).deadline
        ∧ ttlPosB spec (store a).state = true) →
      (∀ j, j ∉ q → (store j).index = -1) →
      ((drain spec now store raised q).2.2.1.Nodup
       ∧ (∀ a ∈ (drain spec now store raised q).2.2.1, a < nxt)
       ∧ (∀ a ∈ (drain spec now store raised q).2.2.1,
           0 ≤ ((drain spec now store raised q).1 a).index
             ∧ 0 < ((drain spec now store raised q).1 a).deadline
             ∧ ttlPosB spec ((drain spec now store raised q).1 a).state = true)
       ∧ (∀ j, j ∉ (drain spec now store raised q).2.2.1 →
           ((drain spec now store raised q).1 j).index = -1)) := by
  intro q
  induction q with
  | nil =>
    intro store raised h1 h2 h3 h4
    rw [drain]
    exact ⟨List.nodup_nil, by simp, by simp, h4⟩
  | cons hd rest ih =>
    intro store raised h1 h2 h3 h4
    rw [drain]
    by_cases hstop : now < (store hd).deadline
    · rw [if_pos hstop]
      exact ⟨h1, h2, h3, h4⟩
    · rw [if_neg hstop]
      have hmem : hd ∈ hd :: rest := List.mem_cons_self _ _
      have hdl : 0 < ((setInst store hd fun i => { i with index := -1 }) hd).deadline := by
        rw [setInst_same]
        exact (h3 hd hmem).2.1
      rw [if_pos hdl]
      obtain ⟨stt, hlook, hpos, hexp⟩ := expiry_of_ttlPos (h3 hd hmem).2.2
      have hstate : ((setInst store hd fun i => { i with index := -1 }) hd).state
          = (store hd).state := by
        rw [setInst_same]
      rw [hstate, hexp]
      dsimp only
      have hnd := List.nodup_cons.mp h1
      have htrans :
          ∀ (st2 : ID → Inst), (∀ a ∈ rest, st2 a = store a) →
            (∀ j, j ∉ rest → (st2 j).index = -1) →
            ∀ (raised1 : List Event),
            ((drain spec now st2 raised1 rest).2.2.1.Nodup
             ∧ (∀ a ∈ (drain spec now st2 raised1 rest).2.2.1, a < nxt)
             ∧ (∀ a ∈ (drain spec now st2 raised1 rest).2.2.1,
                 0 ≤ ((drain spec now st2 raised1 rest).1 a).index
                   ∧ 0 < ((drain spec now st2 raised1 rest).1 a).deadline
                   ∧ ttlPosB spec ((drain spec now st2 raised1 rest).1 a).state = true)
             ∧ (∀ j, j ∉ (drain spec now st2 raised1 rest).2.2.1 →
                 ((drain spec now st2 raised1 rest).1 j).index = -1)) := by
        intro st2 heq hidx raised1
        refine ih st2 raised1 hnd.2 (fun a ha => h2 a (List.mem_cons_of_mem _ ha)) ?_ hidx
        intro a ha
        rw [heq a ha]
        exact h3 a (List.mem_cons_of_mem _ ha)
      have heqst : ∀ a ∈ rest,
          (setInst (setInst store hd fun i => { i with index := -1 }) hd
            (fun i => { i with deadline := -1, index := -1 })) a = store a := by
        intro a ha
        have hne : a ≠ hd := fun hh => hnd.1 (hh ▸ ha)
        rw [setInst_other _ hne, setInst_other _ hne]
      have hidxst : ∀ j, j ∉ rest →
          ((setInst (setInst store hd fun i => { i with index := -1 }) hd
            (fun i => { i with deadline := -1, index := -1 })) j).index = -1 := by
        intro j hj
        by_cases hje : j = hd
        · subst hje
          rw [setInst_same]
        · rw [setInst_other _ hje, setInst_other _ hje]
          exact h4 j (fun hm => (List.mem_cons.mp hm).elim (fun hh => hje hh) hj)
      by_cases hraise : stt.TTL.Raise ∈ spec.signals
      · rw [if_pos hraise]
        exact htrans _ heqst hidxst _
      · rw [if_neg hraise]
        exact htrans _ heqst hidxst _

theorem handleClockTick_qinv {s : RState} (h : Qinv s) :
    Qinv (handleClockTick s).1 := by
  obtain ⟨h1, h2, h3, h4⟩ := h
  have hd := drain_qinv s.spec (s.now + 1) s.next s.queue s.store s.raised h1 h2 h3 h4
  exact ⟨hd.1, hd.2.1, hd.2.2.1, hd.2.2.2⟩

theorem alloc_qinv {s : RState} (initial : Fsm.Index) (h : Qinv s) :
    Qinv (alloc s initial).1 := by
  obtain ⟨h1, h2, h3, h4⟩ := h
  have hs1 : Qinv (allocState s initial) := by
    rw [allocState]
    refine ⟨h1, ?_, ?_, ?_⟩
    · intro a ha
      exact Nat.lt_succ_of_lt (h2 a ha)
    · intro a ha
      dsimp only at ha ⊢
      have hne : a ≠ s.next := Nat.ne_of_lt (h2 a ha)
      rw [if_neg hne]
      exact h3 a ha
    · intro j hj
      dsimp only at hj ⊢
      by_cases hje : j = s.next
      · rw [if_pos hje]
        rfl
      · rw [if_neg hje]
        exact h4 j hj
  have hmain := @processDeadline_qinv _ s.next initial hs1
    (Nat.lt_succ_self _)
  rw [alloc]
  cases hres : processDeadline (allocState s initial) s.next initial with
  | mk s2 oe =>
    rw [hres] at hmain
    cases oe with
    | some e => exact hmain
    | none => exact hmain

/-! ### Characterization of the clock-tick drain -/

theorem filter_congr_mem {α : Type} (p q : α → Bool) :
    ∀ l : List α, (∀ a ∈ l, p a = q a) → l.filter p = l.filter q := by
  intro l
  induction l with
  | nil => intro _; rfl
  | cons x xs ih =>
    intro h
    rw [List.filter_cons, List.filter_cons, h x (List.mem_cons_self _ _),
        ih (fun a ha => h a (List.mem_cons_of_mem _ ha))]

theorem map_congr_mem {α β : Type} (f g : α → β) :
    ∀ l : List α, (∀ a ∈ l, f a = g a) → l.map f = l.map g := by
  intro l
  induction l with
  | nil => intro _; rfl
  | cons x xs ih =>
    intro h
    rw [List.map_cons, List.map_cons, h x (List.mem_cons_self _ _),
        ih (fun a ha => h a (List.mem_cons_of_mem _ ha))]

theorem pairwise_congr_mem (d1 d2 : ID → Int) :
    ∀ l : List ID, (∀ a ∈ l, d1 a = d2 a) →
      l.Pairwise (fun x y => d1 x ≤ d1 y) →
      l.Pairwise (fun x y => d2 x ≤ d2 y) := by
  intro l
  induction l with
  | nil => intro _ _; exact List.Pairwise.nil
  | cons x xs ih =>
    intro h hp
    rw [List.pairwise_cons] at hp ⊢
    constructor
    · intro b hb
      rw [← h x (List.mem_cons_self _ _), ← h b (List.mem_cons_of_mem _ hb)]
      exact hp.1 b hb
    · exact ih (fun a ha => h a (List.mem_cons_of_mem _ ha)) hp.2

theorem drain_run (spec : Spec) (now : Time) :
    ∀ (q : List ID) (store : ID → Inst) (raised : List Event),
      q.Nodup →
      q.Pairwise (fun a b => (store a).deadline ≤ (store b).deadline) →
      (∀ a ∈ q, 0 < (store a).deadline → ttlArmedB spec (store a).state = true) →
      ((drain spec now store raised q).2.2.2 = none
       ∧ (drain spec now store raised q).2.2.1
           = q.filter (fun i => decide (now < (store i).deadline))
       ∧ (drain spec now store raised q).2.1
           = raised ++ (q.filter (fun i =>
               decide ((store i).deadline ≤ now) && decide (0 < (store i).deadline))).map
               (fun i => ⟨i, ttlRaise spec (store i).state, none⟩)
       ∧ (∀ a ∈ q, (store a).deadline ≤ now →
           ((drain spec now store raised q).1 a).deadline = -1
             ∧ ((drain spec now store raised q).1 a).index = -1)
       ∧ (∀ j, j ∉ q → (drain spec now store raised q).1 j = store j)
       ∧ (∀ a ∈ q, now < (store a).deadline →
           (drain spec now store raised q).1 a = store a)) := by
  intro q
  induction q with
  | nil =>
    intro store raised h1 hs hq
    rw [drain]
    refine ⟨rfl, rfl, by simp, by simp, fun j _ => rfl, by simp⟩
  | cons hd rest ih =>
    intro store raised h1 hs hq
    have hnd := List.nodup_cons.mp h1
    have hps := List.pairwise_cons.mp hs
    rw [drain]
    by_cases hstop : now < (store hd).deadline
    · rw [if_pos hstop]
      refine ⟨rfl, ?_, ?_, ?_, fun j _ => rfl, fun a _ _ => rfl⟩
      · symm
        rw [List.filter_eq_self]
        intro a ha
        rcases List.mem_cons.mp ha with rfl | ha'
        · simpa using hstop
        · simp only [decide_eq_true_eq]
          exact lt_of_lt_of_le hstop (hps.1 a ha')
      · have hnil : (hd :: rest).filter (fun i =>
            decide ((store i).deadline ≤ now) && decide (0 < (store i).deadline)) = [] := by
          rw [List.filter_eq_nil_iff]
          intro a ha
          have : now < (store a).deadline := by
            rcases List.mem_cons.mp ha with rfl | ha'
            · exact hstop
            · exact lt_of_lt_of_le hstop (hps.1 a ha')
          simp [not_le.mpr this]
        rw [hnil]
        simp
      · intro a ha hle
        exfalso
        rcases List.mem_cons.mp ha with rfl | ha'
        · exact absurd hle (not_le.mpr hstop)
        · exact absurd hle (not_le.mpr (lt_of_lt_of_le hstop (hps.1 a ha')))
    · rw [if_neg hstop]
      have hle : (store hd).deadline ≤ now := not_lt.mp hstop
      dsimp only
      rw [setInst_same]
      dsimp only
      have hmemhd : hd ∈ hd :: rest := List.mem_cons_self _ _
      by_cases hdl : 0 < (store hd).deadline
      · rw [if_pos hdl]
        obtain ⟨stt, hlook, hpos, hsig, hexp, hrsig⟩ :=
          expiry_of_ttlArmed (hq hd hmemhd hdl)
        rw [hexp]
        dsimp only
        rw [if_pos hsig]
        generalize hgen : (setInst (setInst store hd fun i => { i with index := -1 }) hd
            (fun i => { i with deadline := -1, index := -1 })) = st2
        have hst2_ne : ∀ j, j ≠ hd → st2 j = store j := by
          intro j hne
          rw [← hgen, setInst_other _ hne, setInst_other _ hne]
        have hst2_eq : ∀ a ∈ rest, st2 a = store a :=
          fun a ha => hst2_ne a (fun e => hnd.1 (e ▸ ha))
        have hst2_hd_d : (st2 hd).deadline = -1 := by
          rw [← hgen, setInst_same]
        have hst2_hd_i : (st2 hd).index = -1 := by
          rw [← hgen, setInst_same]
        have IH := ih st2 (raised ++ [⟨hd, stt.TTL.Raise, none⟩]) hnd.2
            (pairwise_congr_mem _ _ rest (fun a ha => by rw [hst2_eq a ha]) hps.2)
            (fun a ha hpa => by
              rw [hst2_eq a ha] at hpa ⊢
              exact hq a (List.mem_cons_of_mem _ ha) hpa)
        obtain ⟨c1, c2, c3, c4, c5, c6⟩ := IH
        have hfeq2 : List.filter (fun i => decide (now < (st2 i).deadline)) rest
            = List.filter (fun i => decide (now < (store i).deadline)) rest :=
          filter_congr_mem _ _ rest (fun a ha => by simp only [hst2_eq a ha])
        have hfeq3 : List.filter (fun i =>
              decide ((st2 i).deadline ≤ now) && decide (0 < (st2 i).deadline)) rest
            = List.filter (fun i =>
              decide ((store i).deadline ≤ now) && decide (0 < (store i).deadline)) rest :=
          filter_congr_mem _ _ rest (fun a ha => by simp only [hst2_eq a ha])
        have hmeq : List.map (fun i =>
              (⟨i, ttlRaise spec (st2 i).state, none⟩ : Event))
              (List.filter (fun i =>
                decide ((store i).deadline ≤ now) && decide (0 < (store i).deadline)) rest)
            = List.map (fun i => (⟨i, ttlRaise spec (store i).state, none⟩ : Event))
              (List.filter (fun i =>
                decide ((store i).deadline ≤ now) && decide (0 < (store i).deadline)) rest) :=
          map_congr_mem _ _ _
            (fun a ha => by simp only [hst2_eq a (List.mem_of_mem_filter ha)])
        refine ⟨c1, ?_, ?_, ?_, ?_, ?_⟩
        · rw [c2, List.filter_cons]
          have hpf : decide (now < (store hd).deadline) = false := by
            simpa using hstop
          rw [hpf]
          simp only [Bool.false_eq_true, if_false]
          exact hfeq2
        · rw [c3, List.filter_cons]
          have hpt : (decide ((store hd).deadline ≤ now)
              && decide (0 < (store hd).deadline)) = true := by
            simp [hle, hdl]
          rw [hpt]
          simp only [if_true]
          rw [List.map_cons, hfeq3, hmeq, List.append_assoc, List.singleton_append]
          simp only [hrsig]
        · intro a ha hadl
          rcases List.mem_cons.mp ha with rfl | ha'
          · rw [c5 a hnd.1]
            exact ⟨hst2_hd_d, hst2_hd_i⟩
          · have := c4 a ha'
            rw [hst2_eq a ha'] at this
            exact this hadl
        · intro j hj
          have hj1 : j ≠ hd := fun e => hj (e ▸ List.mem_cons_self _ _)
          have hj2 : j ∉ rest := fun hm => hj (List.mem_cons_of_mem _ hm)
          rw [c5 j hj2, hst2_ne j hj1]
        · intro a ha hlt
          rcases List.mem_cons.mp ha with rfl | ha'
          · exact absurd hlt hstop
          · have := c6 a ha'
            rw [hst2_eq a ha'] at this
            exact this hlt
      · rw [if_neg hdl]
        generalize hgen : (setInst (setInst store hd fun i => { i with index := -1 }) hd
            (fun i => { i with deadline := -1, index := -1 })) = st2
        have hst2_ne : ∀ j, j ≠ hd → st2 j = store j := by
          intro j hne
          rw [← hgen, setInst_other _ hne, setInst_other _ hne]
        have hst2_eq : ∀ a ∈ rest, st2 a = store a :=
          fun a ha => hst2_ne a (fun e => hnd.1 (e ▸ ha))
        have hst2_hd_d : (st2 hd).deadline = -1 := by
          rw [← hgen, setInst_same]
        have hst2_hd_i : (st2 hd).index = -1 := by
          rw [← hgen, setInst_same]
        have IH := ih st2 raised hnd.2
            (pairwise_congr_mem _ _ rest (fun a ha => by rw [hst2_eq a ha]) hps.2)
            (fun a ha hpa => by
              rw [hst2_eq a ha] at hpa ⊢
              exact hq a (List.mem_cons_of_mem _ ha) hpa)
        obtain ⟨c1, c2, c3, c4, c5, c6⟩ := IH
        have hfeq2 : List.filter (fun i => decide (now < (st2 i).deadline)) rest
            = List.filter (fun i => decide (now < (store i).deadline)) rest :=
          filter_congr_mem _ _ rest (fun a ha => by simp only [hst2_eq a ha])
        have hfeq3 : List.filter (fun i =>
              decide ((st2 i).deadline ≤ now) && decide (0 < (st2 i).deadline)) rest
            = List.filter (fun i =>
              decide ((store i).deadline ≤ now) && decide (0 < (store i).deadline)) rest :=
          filter_congr_mem _ _ rest (fun a ha => by simp only [hst2_eq a ha])
        have hmeq : List.map (fun i =>
              (⟨i, ttlRaise spec (st2 i).state, none⟩ : Event))
              (List.filter (fun i =>
                decide ((store i).deadline ≤ now) && decide (0 < (store i).deadline)) rest)
            = List.map (fun i => (⟨i, ttlRaise spec (store i).state, none⟩ : Event))
              (List.filter (fun i =>
                decide ((store i).deadline ≤ now) && decide (0 < (store i).deadline)) rest) :=
          map_congr_mem _ _ _
            (fun a ha => by simp only [hst2_eq a (List.mem_of_mem_filter ha)])
        refine ⟨c1, ?_, ?_, ?_, ?_, ?_⟩
        · rw [c2, List.filter_cons]
          have hpf : decide (now < (store hd).deadline) = false := by
            simpa using hstop
          rw [hpf]
          simp only [Bool.false_eq_true, if_false]
          exact hfeq2
        · rw [c3, List.filter_cons]
          have hpt : (decide ((store hd).deadline ≤ now)
              && decide (0 < (store hd).deadline)) = false := by
            simp [hdl]
          rw [hpt]
          simp only [Bool.false_eq_true, if_false]
          rw [hfeq3, hmeq]
        · intro a ha hadl
          rcases List.mem_cons.mp ha with rfl | ha'
          · rw [c5 a hnd.1]
            exact ⟨hst2_hd_d, hst2_hd_i⟩
          · have := c4 a ha'
            rw [hst2_eq a ha'] at this
            exact this hadl
        · intro j hj
          have hj1 : j ≠ hd := fun e => hj (e ▸ List.mem_cons_self _ _)
          have hj2 : j ∉ rest := fun hm => hj (List.mem_cons_of_mem _ hm)
          rw [c5 j hj2, hst2_ne j hj1]
        · intro a ha hlt
          rcases List.mem_cons.mp ha with rfl | ha'
          · exact absurd hlt hstop
          · have := c6 a ha'
            rw [hst2_eq a ha'] at this
            exact this hlt

/-! ### Observation lemmas for the transition handler -/

theorem reconcile_obs (s : RState) (id : ID) :
    (reconcile s id).errorsOut = s.errorsOut
    ∧ (reconcile s id).raised = s.raised
    ∧ (reconcile s id).spec = s.spec
    ∧ (reconcile s id).options = s.options
    ∧ (reconcile s id).now = s.now
    ∧ (reconcile s id).next = s.next
    ∧ (∀ j, ((reconcile s id).store j).state = (s.store j).state
        ∧ ((reconcile s id).store j).deadline = (s.store j).deadline
        ∧ ((reconcile s id).store j).visits = (s.store j).visits
        ∧ ((reconcile s id).store j).data = (s.store j).data) := by
  rw [reconcile]
  split
  · split
    · refine ⟨rfl, rfl, rfl, rfl, rfl, rfl, ?_⟩
      intro j
      rw [qupdatePos]
      dsimp only
      by_cases hj : j = id
      · subst hj; rw [setInst_same]; exact ⟨rfl, rfl, rfl, rfl⟩
      · rw [setInst_other _ hj]; exact ⟨rfl, rfl, rfl, rfl⟩
    · refine ⟨rfl, rfl, rfl, rfl, rfl, rfl, ?_⟩
      intro j
      rw [qremove]
      dsimp only
      by_cases hj : j = id
      · subst hj; rw [setInst_same]; exact ⟨rfl, rfl, rfl, rfl⟩
      · rw [setInst_other _ hj]; exact ⟨rfl, rfl, rfl, rfl⟩
  · split
    · refine ⟨rfl, rfl, rfl, rfl, rfl, rfl, ?_⟩
      intro j
      rw [qenqueue]
      dsimp only
      by_cases hj : j = id
      · subst hj; rw [setInst_same]; exact ⟨rfl, rfl, rfl, rfl⟩
      · rw [setInst_other _ hj]; exact ⟨rfl, rfl, rfl, rfl⟩
    · exact ⟨rfl, rfl, rfl, rfl, rfl, rfl, fun j => ⟨rfl, rfl, rfl, rfl⟩⟩

theorem processDeadline_obs {s : RState} {id : ID} {n : Fsm.Index} {stt : State}
    (hdef : look n s.spec.states = some stt) :
    (processDeadline s id n).2 = none
    ∧ ((processDeadline s id n).1.store id).state = n
    ∧ (processDeadline s id n).1.errorsOut = s.errorsOut
    ∧ (processDeadline s id n).1.raised = s.raised
    ∧ (processDeadline s id n).1.spec = s.spec
    ∧ (processDeadline s id n).1.options = s.options
    ∧ ((processDeadline s id n).1.store id).data = (s.store id).data
    ∧ ((processDeadline s id n).1.store id).visits
        = (fun j => if j = n then (s.store id).visits n + 1 else (s.store id).visits j)
    ∧ ((processDeadline s id n).1.store id).deadline
        = (if 0 < stt.TTL.TTL then s.now + stt.TTL.TTL else 0) := by
  have hexp := expiry_of_look hdef
  rw [processDeadline, hexp]
  by_cases hp : 0 < stt.TTL.TTL
  · rw [if_pos hp]
    dsimp only
    have hro := reconcile_obs
      { s with store := setInst s.store id (fun i => i.update n s.now stt.TTL.TTL) } id
    obtain ⟨r1, r2, r3, r4, r5, r6, r7⟩ := hro
    refine ⟨rfl, ?_, r1, r2, r3, r4, ?_, ?_, ?_⟩
    · rw [(r7 id).1]
      dsimp only
      rw [setInst_same, update_state]
    · rw [(r7 id).2.2.2]
      dsimp only
      rw [setInst_same, update_data]
    · rw [(r7 id).2.2.1]
      dsimp only
      rw [setInst_same]
      rfl
    · rw [(r7 id).2.1]
      dsimp only
      rw [setInst_same, update_deadline, if_pos hp]
  · rw [if_neg hp]
    dsimp only
    have hro := reconcile_obs
      { s with store := setInst s.store id (fun i => i.update n s.now 0) } id
    obtain ⟨r1, r2, r3, r4, r5, r6, r7⟩ := hro
    refine ⟨rfl, ?_, r1, r2, r3, r4, ?_, ?_, ?_⟩
    · rw [(r7 id).1]
      dsimp only
      rw [setInst_same, update_state]
    · rw [(r7 id).2.2.2]
      dsimp only
      rw [setInst_same, update_data]
    · rw [(r7 id).2.2.1]
      dsimp only
      rw [setInst_same]
      rfl
    · rw [(r7 id).2.1]
      dsimp only
      rw [setInst_same, update_deadline, if_neg hp]
      norm_num

theorem processVisitLimit_noerr {s : RState} {id : ID} {n : Fsm.Index} {stt : State}
    (hdef : look n s.spec.states = some stt) :
    (processVisitLimit s id n).2 = none := by
  have hv : s.spec.visit n
      = .ok (if 0 < stt.Visit.Value then some stt.Visit else none) := by
    rw [Spec.visit, hdef]
  rw [processVisitLimit, hv]
  by_cases hp : 0 < stt.Visit.Value
  · rw [if_pos hp]
    dsimp only
    split
    · rfl
    · rfl
  · rw [if_neg hp]

theorem finishTransition_obs {s : RState} {id : ID} {n : Fsm.Index} {stt : State}
    (hdef : look n s.spec.states = some stt) :
    (finishTransition s id n).2 = none
    ∧ ((finishTransition s id n).1.store id).state = n
    ∧ (finishTransition s id n).1.errorsOut = s.errorsOut := by
  have hpd := @processDeadline_obs s id n stt hdef
  rw [finishTransition]
  cases hres : processDeadline s id n with
  | mk s3 oe =>
    rw [hres] at hpd
    have hoe : oe = none := hpd.1
    subst hoe
    dsimp only
    have hsp3 : s3.spec = s.spec := hpd.2.2.2.2.1
    have hdef3 : look n s3.spec.states = some stt := by
      rw [hsp3]; exact hdef
    have hnv := @processVisitLimit_noerr s3 id n stt hdef3
    have hfr := processVisitLimit_frame s3 id n
    refine ⟨hnv, ?_, ?_⟩
    · rw [hfr.2.1]
      exact hpd.2.1
    · rw [hfr.2.2.2.2.1]
      exact hpd.2.2.1

theorem attachData_facts (s : RState) (id : ID) (d : Option Int) :
    (attachData s id d).spec = s.spec
    ∧ (attachData s id d).options = s.options
    ∧ (attachData s id d).errorsOut = s.errorsOut
    ∧ (attachData s id d).raised = s.raised
    ∧ (attachData s id d).next = s.next
    ∧ (∀ j, ((attachData s id d).store j).state = (s.store j).state) := by
  cases d with
  | none => exact ⟨rfl, rfl, rfl, rfl, rfl, fun j => rfl⟩
  | some v =>
    refine ⟨rfl, rfl, rfl, rfl, rfl, ?_⟩
    intro j
    show ((setInst s.store id fun i => { i with data := some v }) j).state
      = (s.store j).state
    by_cases hj : j = id
    · subst hj; rw [setInst_same]
    · rw [setInst_other _ hj]

theorem flapBase_facts (s : RState) (id : ID) (c n : Fsm.Index) :
    (flapBase s id c n).spec = s.spec
    ∧ (flapBase s id c n).options = s.options
    ∧ (flapBase s id c n).errorsOut = s.errorsOut
    ∧ (flapBase s id c n).raised = s.raised
    ∧ (flapBase s id c n).next = s.next
    ∧ (∀ j, ((flapBase s id c n).store j).state = (s.store j).state) := by
  rw [flapBase]
  split
  · split
    · refine ⟨rfl, rfl, rfl, rfl, rfl, ?_⟩
      intro j
      rw [flapRecord]
      dsimp only
      by_cases hj : j = id
      · subst hj; rw [setInst_same]
      · rw [setInst_other _ hj]
    · exact ⟨rfl, rfl, rfl, rfl, rfl, fun j => rfl⟩
  · exact ⟨rfl, rfl, rfl, rfl, rfl, fun j => rfl⟩

theorem actionTarget_some {s : RState} {id : ID} {sig : Signal}
    {c n0 : Fsm.Index} {st : State} {alt : Fsm.Index}
    (hcur : look c s.spec.states = some st)
    (hsig : sig ∈ s.spec.signals)
    (herr : look sig st.Errors = some alt) :
    actionTarget s id sig c n0 (some true) = (s, alt) := by
  have he : s.spec.error c sig = .ok alt := by
    rw [Spec.error, hcur]
    dsimp only
    rw [if_pos hsig, herr]
  rw [actionTarget, he]

theorem actionTarget_none_err {s : RState} {id : ID} {sig : Signal}
    {c n0 : Fsm.Index} {st : State}
    (hcur : look c s.spec.states = some st)
    (hsig : sig ∈ s.spec.signals)
    (herr : look sig st.Errors = none) :
    actionTarget s id sig c n0 (some true)
      = (handleError s (.UnknownTransition sig c), n0) := by
  have he : s.spec.error c sig = .error (.UnknownTransition sig c) := by
    rw [Spec.error, hcur]
    dsimp only
    rw [if_pos hsig, herr]
  rw [actionTarget, he]

theorem actionTarget_skip (s : RState) (id : ID) (sig : Signal)
    (c n0 : Fsm.Index) :
    actionTarget s id sig c n0 none = (s, n0) := rfl

theorem actionTarget_okAction (s : RState) (id : ID) (sig : Signal)
    (c n0 : Fsm.Index) :
    actionTarget s id sig c n0 (some false) = (s, n0) := rfl

theorem handleError_unkTrans {s : RState} {sig : Signal} {c : Fsm.Index}
    (hflag : s.options.IgnoreUndefinedTransitions = false) :
    handleError s (.UnknownTransition sig c)
      = { s with errorsOut := s.errorsOut ++ [.UnknownTransition sig c] } := by
  simp [handleError, hflag]

theorem handleEvent_fallthrough {s : RState} {id : ID} {ev : Event}
    {next : Fsm.Index} {action : Option Action}
    (htr : s.spec.transition (s.store id).state ev.signal = .ok (next, action))
    (hnh : flapHalts s id (s.store id).state next = false) :
    handleEvent s id ev
      = postFlap (flapBase s id (s.store id).state next) id ev
          (s.store id).state next action := by
  rw [handleEvent, htr]
  dsimp only
  cases hfl : s.spec.flap (s.store id).state next with
  | none => simp only [flapBase, hfl]
  | some limit =>
    dsimp only
    rw [flapHalts, hfl] at hnh
    dsimp only at hnh
    by_cases hc : 0 < limit.Count
    · rw [if_pos hc]
      rw [if_pos hc] at hnh
      have hlt : ¬ (limit.Count ≤
          ((((flapRecord s id (s.store id).state next).store id).flaps.count
              (s.store id).state next : Int))) := by
        intro hcontra
        rw [decide_eq_true hcontra] at hnh
        exact Bool.true_eq_false.mp hnh
      rw [if_neg hlt]
      simp only [flapBase, hfl, if_pos hc]
    · rw [if_neg hc]
      simp only [flapBase, hfl, if_neg hc]

theorem handleEvent_halt {s : RState} {id : ID} {ev : Event}
    {next : Fsm.Index} {action : Option Action} {limit : Flap}
    (htr : s.spec.transition (s.store id).state ev.signal = .ok (next, action))
    (hfl : s.spec.flap (s.store id).state next = some limit)
    (hc : 0 < limit.Count)
    (hth : limit.Count ≤
      ((((flapRecord s id (s.store id).state next).store id).flaps.count
          (s.store id).state next : Int))) :
    handleEvent s id ev
      = ((raise (flapRecord s id (s.store id).state next) id limit.Raise).1,
         none) := by
  rw [handleEvent, htr]
  dsimp only
  rw [hfl]
  dsimp only
  rw [if_pos hc, if_pos hth]

theorem processDeadline_err {s : RState} {id : ID} {st : Fsm.Index}
    (hl : look st s.spec.states = none) :
    processDeadline s id st = (s, some (.UnknownState st)) := by
  have he : s.spec.expiry st = .error (.UnknownState st) := by
    rw [Spec.expiry, hl]
  rw [processDeadline, he]

/-! ### The claims -/

/-- C1: for a compiled Spec, `spec.transition(current, signal)` returns
`UnknownState` iff `current` is not a defined state; otherwise
`NoTransitions` iff the state's Transitions map is empty; otherwise
`UnknownSignal` iff the signal is not globally known; otherwise
`UnknownTransition` iff the state has no entry for the signal; otherwise
the mapped next index and the state's optional action, and no error. -/
theorem claim_C1_transition_taxonomy (s : Spec) (c : Fsm.Index) (g : Signal)
    (hk : ∀ p ∈ s.states, p.2.Index = p.1) :
    (look c s.states = none → s.transition c g = .error (.UnknownState c))
    ∧ (∀ st, look c s.states = some st → st.Transitions = [] →
        s.transition c g = .error .NoTransitions)
    ∧ (∀ st, look c s.states = some st → st.Transitions ≠ [] → g ∉ s.signals →
        s.transition c g = .error (.UnknownSignal g 0))
    ∧ (∀ st, look c s.states = some st → st.Transitions ≠ [] → g ∈ s.signals →
        look g st.Transitions = none →
        s.transition c g = .error (.UnknownTransition g c))
    ∧ (∀ st n, look c s.states = some st → st.Transitions ≠ [] → g ∈ s.signals →
        look g st.Transitions = some n →
        s.transition c g = .ok (n, look g st.Actions)) := by
  refine ⟨?_, ?_, ?_, ?_, ?_⟩
  · intro h
    rw [Spec.transition, h]
  · intro st h he
    rw [Spec.transition, h]
    dsimp only
    rw [if_pos he]
  · intro st h he hg
    rw [Spec.transition, h]
    dsimp only
    rw [if_neg he, if_neg hg]
  · intro st h he hg hl
    rw [Spec.transition, h]
    dsimp only
    rw [if_neg he, if_pos hg, hl]
    have hkey : st.Index = c := hk (c, st) (look_mem _ _ _ h)
    rw [hkey]
  · intro st n h he hg hl
    rw [Spec.transition, h]
    dsimp only
    rw [if_neg he, if_pos hg, hl]

theorem claim_C1_witness :
    (∀ p ∈ specA.states, p.2.Index = p.1)
    ∧ ((look 0 specA.states = none →
          specA.transition 0 1 = .error (.UnknownState 0))
      ∧ (∀ st, look 0 specA.states = some st → st.Transitions = [] →
          specA.transition 0 1 = .error .NoTransitions)
      ∧ (∀ st, look 0 specA.states = some st → st.Transitions ≠ [] →
          (1 : Signal) ∉ specA.signals →
          specA.transition 0 1 = .error (.UnknownSignal 1 0))
      ∧ (∀ st, look 0 specA.states = some st → st.Transitions ≠ [] →
          (1 : Signal) ∈ specA.signals → look 1 st.Transitions = none →
          specA.transition 0 1 = .error (.UnknownTransition 1 0))
      ∧ (∀ st n, look 0 specA.states = some st → st.Transitions ≠ [] →
          (1 : Signal) ∈ specA.signals → look 1 st.Transitions = some n →
          specA.transition 0 1 = .ok (n, look 1 st.Actions))) :=
  ⟨by decide, claim_C1_transition_taxonomy specA 0 1 (by decide)⟩

/-- C5: `processVisitLimit` raises the visit-cap signal of the
post-transition state iff the Spec declares a Visit limit with a
positive Value for it and the instance's visit counter equals that
Value; a state with Visit.Value 0 never triggers a raise, and an
undefined state yields an error and no raise. -/
theorem claim_C5_visit_cap (s : RState) (id : ID) (next : Fsm.Index)
    (hr : visitRaiseOkB s.spec next = true) :
    (look next s.spec.states = none →
      processVisitLimit s id next = (s, some (.UnknownState next)))
    ∧ (∀ stt, look next s.spec.states = some stt →
        0 < stt.Visit.Value → (s.store id).visits next = stt.Visit.Value →
        processVisitLimit s id next
          = ({ s with raised := s.raised ++ [⟨id, stt.Visit.Raise, none⟩] }, none))
    ∧ (∀ stt, look next s.spec.states = some stt →
        ¬(0 < stt.Visit.Value ∧ (s.store id).visits next = stt.Visit.Value) →
        processVisitLimit s id next = (s, none)) := by
  refine ⟨?_, ?_, ?_⟩
  · intro hl
    have hv : s.spec.visit next = .error (.UnknownState next) := by
      rw [Spec.visit, hl]
    rw [processVisitLimit, hv]
  · intro stt hl hv hc
    have hvis : s.spec.visit next = .ok (some stt.Visit) := by
      rw [Spec.visit, hl]
      dsimp only
      rw [if_pos hv]
    rw [processVisitLimit, hvis]
    dsimp only
    rw [if_pos ⟨hv, hc⟩]
    rw [visitRaiseOkB, hl] at hr
    dsimp only at hr
    rw [if_pos hv] at hr
    have hmem : stt.Visit.Raise ∈ s.spec.signals := of_decide_eq_true hr
    rw [raise, if_pos hmem]
  · intro stt hl hnc
    by_cases hv : 0 < stt.Visit.Value
    · have hvis : s.spec.visit next = .ok (some stt.Visit) := by
        rw [Spec.visit, hl]
        dsimp only
        rw [if_pos hv]
      rw [processVisitLimit, hvis]
      dsimp only
      rw [if_neg hnc]
    · have hvis : s.spec.visit next = .ok none := by
        rw [Spec.visit, hl]
        dsimp only
        rw [if_neg hv]
      rw [processVisitLimit, hvis]

theorem claim_C5_witness :
    visitRaiseOkB sC5.spec 2 = true
    ∧ ((look 2 sC5.spec.states = none →
          processVisitLimit sC5 0 2 = (sC5, some (.UnknownState 2)))
      ∧ (∀ stt, look 2 sC5.spec.states = some stt →
          0 < stt.Visit.Value → (sC5.store 0).visits 2 = stt.Visit.Value →
          processVisitLimit sC5 0 2
            = ({ sC5 with raised := sC5.raised ++ [⟨0, stt.Visit.Raise, none⟩] }, none))
      ∧ (∀ stt, look 2 sC5.spec.states = some stt →
          ¬(0 < stt.Visit.Value ∧ (sC5.store 0).visits 2 = stt.Visit.Value) →
          processVisitLimit sC5 0 2 = (sC5, none))) :=
  ⟨by decide, claim_C5_visit_cap sC5 0 2 (by decide)⟩

/-- C6: the claim says `New(initial)` yields visit count exactly 1 for
the initial state; the code seeds the counter with 1 and then
`instance.update` (called from `processDeadline` during allocation)
increments it again, so the count after allocation is 2. The other
claimed allocation effects (state, no data, deadline from TTL, queue)
do hold; this theorem evaluates allocation at the failing input. -/
theorem claim_C6_alloc_visits :
    ((alloc s6 0).1.store 0).state = 0
    ∧ ((alloc s6 0).1.store 0).data = none
    ∧ ((alloc s6 0).1.store 0).deadline = 0
    ∧ (alloc s6 0).1.queue = []
    ∧ (alloc s6 0).2.1 = some 0
    ∧ (alloc s6 0).2.2 = none
    ∧ ((alloc s6 0).1.store 0).visits 0 = 2 := by
  refine ⟨rfl, rfl, rfl, rfl, rfl, rfl, by decide⟩

/-- C8: `runner.signal` (backing `FSM.Signal`) returns `UnknownSignal`
iff the signal is not globally known; for a known signal it returns no
error and merely posts the event (with the instance id and optional
data) to the runner — independent of the instance's current state, with
no per-state validity check. -/
theorem claim_C8_signal (s : RState) (inst : Inst) (g : Signal)
    (d : Option Int) :
    ((rsignal s inst g d).1 = some (.UnknownSignal g 0) ↔ g ∉ s.spec.signals)
    ∧ (g ∈ s.spec.signals → rsignal s inst g d = (none, some ⟨inst.id, g, d⟩))
    ∧ (∀ inst' : Inst, inst'.id = inst.id →
        rsignal s inst' g d = rsignal s inst g d) := by
  refine ⟨?_, ?_, ?_⟩
  · by_cases hg : g ∈ s.spec.signals
    · rw [rsignal, if_pos hg]
      simp [hg]
    · rw [rsignal, if_neg hg]
      simp [hg]
  · intro hg
    rw [rsignal, if_pos hg]
  · intro inst' hid
    by_cases hg : g ∈ s.spec.signals
    · rw [rsignal, if_pos hg, rsignal, if_pos hg, hid]
    · rw [rsignal, if_neg hg, rsignal, if_neg hg]

theorem claim_C8_witness :
    ((rsignal sA instA 1 none).1 = some (.UnknownSignal 1 0)
        ↔ (1 : Signal) ∉ sA.spec.signals)
    ∧ ((1 : Signal) ∈ sA.spec.signals →
        rsignal sA instA 1 none = (none, some ⟨instA.id, 1, none⟩))
    ∧ (∀ inst' : Inst, inst'.id = instA.id →
        rsignal sA inst' 1 none = rsignal sA instA 1 none) :=
  claim_C8_signal sA instA 1 none

/-- C9 counterexample: with the runner constructed but stopped
(`running = false`) and a defined initial state, `Machines.New` returns
an instance and no error — refuting the claim that it returns an error
when the runner is not running (the code never consults the flag; before
`Run` it dereferences a nil runner instead of returning an error). -/
theorem claim_C9_counterexample :
    s9.running = false
    ∧ (machinesNew s9 0).2.1 = some 0
    ∧ (machinesNew s9 0).2.2 = none := by
  refine ⟨rfl, rfl, rfl⟩

theorem allocState_spec (s : RState) (initial : Fsm.Index) :
    (allocState s initial).spec = s.spec := rfl

theorem alloc_proj (s : RState) (initial : Fsm.Index) :
    (alloc s initial).2
      = (match look initial s.spec.states with
         | none => (none, some (Err.UnknownState initial))
         | some _ => (some s.next, none)) := by
  rw [alloc]
  cases hl : look initial s.spec.states with
  | none =>
    rw [processDeadline_err (s := allocState s initial) (by exact hl)]
  | some stt =>
    have hdef : look initial (allocState s initial).spec.states = some stt := by
      rw [allocState_spec]
      exact hl
    have hpd := @processDeadline_obs (allocState s initial) s.next initial stt hdef
    cases hres : processDeadline (allocState s initial) s.next initial with
    | mk s2 oe =>
      rw [hres] at hpd
      have hoe : oe = none := hpd.1
      subst hoe
      rfl

/-- C9 (amended): `Machines.New` delegates to `runner.alloc` without any
running-state check: it returns `UnknownState` iff the initial state is
undefined, returns the fresh instance id and no error when the state is
defined, and its outcome is identical whether the runner is running or
stopped. -/
theorem claim_C9_new (s : RState) (initial : Fsm.Index) :
    ((machinesNew s initial).2.2 = some (.UnknownState initial)
        ↔ look initial s.spec.states = none)
    ∧ (∀ stt, look initial s.spec.states = some stt →
        (machinesNew s initial).2.1 = some s.next
          ∧ (machinesNew s initial).2.2 = none)
    ∧ (machinesNew { s with running := true } initial).2
        = (machinesNew { s with running := false } initial).2 := by
  have keyS := alloc_proj s initial
  have keyT := alloc_proj { s with running := true } initial
  have keyF := alloc_proj { s with running := false } initial
  refine ⟨?_, ?_, ?_⟩
  · rw [machinesNew, keyS]
    cases hl : look initial s.spec.states with
    | none => simp
    | some stt => simp
  · intro stt hl
    rw [machinesNew, keyS, hl]
    exact ⟨rfl, rfl⟩
  · rw [machinesNew, machinesNew, keyT, keyF]

theorem claim_C9_witness :
    (∀ stt, look 0 s9.spec.states = some stt →
      (machinesNew s9 0).2.1 = some s9.next ∧ (machinesNew s9 0).2.2 = none) :=
  (claim_C9_new s9 0).2.1

/-- C2: when the transition handler invokes an action callback that
returns a non-nil error, the instance transitions to the state's Errors
fallback for the signal when one is declared (with nothing on the error
channel from this path); when none is declared, a failure report is
delivered on the error channel (the `UnknownTransition` produced by the
fallback lookup, unless suppressed by the ignore flag) and the instance
still transitions to the originally computed next state. -/
theorem claim_C2_action_error (s : RState) (id : ID) (ev : Event)
    (st : State) (next : Fsm.Index)
    (hcur : look (s.store id).state s.spec.states = some st)
    (htr : s.spec.transition (s.store id).state ev.signal = .ok (next, some true))
    (hnh : flapHalts s id (s.store id).state next = false) :
    (∀ alternate stt, look ev.signal st.Errors = some alternate →
      look alternate s.spec.states = some stt →
      (handleEvent s id ev).2 = none
        ∧ ((handleEvent s id ev).1.store id).state = alternate
        ∧ (handleEvent s id ev).1.errorsOut = s.errorsOut)
    ∧ (∀ stt, look ev.signal st.Errors = none →
      look next s.spec.states = some stt →
      s.options.IgnoreUndefinedTransitions = false →
      (handleEvent s id ev).2 = none
        ∧ ((handleEvent s id ev).1.store id).state = next
        ∧ (handleEvent s id ev).1.errorsOut
            = s.errorsOut ++ [.UnknownTransition ev.signal (s.store id).state]) := by
  obtain ⟨st', hcur', hne', hsig', hlk', hact'⟩ := transition_ok htr
  have hstq : st' = st := by
    rw [hcur] at hcur'
    exact (Option.some.inj hcur').symm
  subst hstq
  have hB := flapBase_facts s id (s.store id).state next
  have hA := attachData_facts (flapBase s id (s.store id).state next) id ev.data
  rw [handleEvent_fallthrough htr hnh, postFlap]
  generalize hABg :
    attachData (flapBase s id (s.store id).state next) id ev.data = AB at hA ⊢
  obtain ⟨hA1, hA2, hA3, hA4, hA5, hA6⟩ := hA
  obtain ⟨hB1, hB2, hB3, hB4, hB5, hB6⟩ := hB
  have hABspec : AB.spec = s.spec := hA1.trans hB1
  have hABopts : AB.options = s.options := hA2.trans hB2
  have hABerr : AB.errorsOut = s.errorsOut := hA3.trans hB3
  refine ⟨?_, ?_⟩
  · intro alternate stt herr hdef
    have hat : actionTarget AB id ev.signal (s.store id).state next (some true)
        = (AB, alternate) :=
      actionTarget_some (by rw [hABspec]; exact hcur)
        (by rw [hABspec]; exact hsig') herr
    rw [hat]
    dsimp only
    have hf := @finishTransition_obs AB id alternate stt
      (by rw [hABspec]; exact hdef)
    exact ⟨hf.1, hf.2.1, hf.2.2.trans hABerr⟩
  · intro stt herr hdefn hflag
    have hat : actionTarget AB id ev.signal (s.store id).state next (some true)
        = (handleError AB (.UnknownTransition ev.signal (s.store id).state),
           next) :=
      actionTarget_none_err (by rw [hABspec]; exact hcur)
        (by rw [hABspec]; exact hsig') herr
    rw [hat]
    dsimp only
    have hflagAB : AB.options.IgnoreUndefinedTransitions = false := by
      rw [hABopts]
      exact hflag
    rw [handleError_unkTrans hflagAB]
    have hf := @finishTransition_obs
      { AB with errorsOut :=
        AB.errorsOut ++ [Err.UnknownTransition ev.signal (s.store id).state] }
      id next stt
      (by
        show look next AB.spec.states = some stt
        rw [hABspec]
        exact hdefn)
    refine ⟨hf.1, hf.2.1, hf.2.2.trans ?_⟩
    show AB.errorsOut ++ [Err.UnknownTransition ev.signal (s.store id).state]
      = s.errorsOut ++ [Err.UnknownTransition ev.signal (s.store id).state]
    rw [hABerr]

theorem claim_C2_witness :
    look (sA.store 0).state sA.spec.states = some stA0
    ∧ sA.spec.transition (sA.store 0).state (1 : Signal) = .ok (1, some true)
    ∧ flapHalts sA 0 (sA.store 0).state 1 = false
    ∧ ((∀ alternate stt, look (1 : Signal) stA0.Errors = some alternate →
          look alternate sA.spec.states = some stt →
          (handleEvent sA 0 ⟨0, 1, none⟩).2 = none
            ∧ ((handleEvent sA 0 ⟨0, 1, none⟩).1.store 0).state = alternate
            ∧ (handleEvent sA 0 ⟨0, 1, none⟩).1.errorsOut = sA.errorsOut)
      ∧ (∀ stt, look (1 : Signal) stA0.Errors = none →
          look 1 sA.spec.states = some stt →
          sA.options.IgnoreUndefinedTransitions = false →
          (handleEvent sA 0 ⟨0, 1, none⟩).2 = none
            ∧ ((handleEvent sA 0 ⟨0, 1, none⟩).1.store 0).state = 1
            ∧ (handleEvent sA 0 ⟨0, 1, none⟩).1.errorsOut
                = sA.errorsOut ++ [.UnknownTransition 1 (sA.store 0).state])) :=
  ⟨by decide, rfl, by decide,
   claim_C2_action_error sA 0 ⟨0, 1, none⟩ stA0 1
     (by decide) rfl (by decide)⟩

/-- C3: a clock tick advances `now` by exactly 1 and then (given the
min-heap ordering and every live queued instance sitting in a defined
state with a positive TTL and known raise signal) dequeues exactly the
entries whose deadline is at or before the new time, raising the TTL
signal of each dequeued instance's state when the entry's deadline is
still positive and skipping stale entries (deadline ≤ 0) without raising
and without error; every processed entry ends with deadline −1 and heap
index −1. -/
theorem claim_C3_clock_tick (s : RState)
    (h1 : s.queue.Nodup)
    (hs : s.queue.Pairwise (fun a b => (s.store a).deadline ≤ (s.store b).deadline))
    (hq : ∀ a ∈ s.queue, 0 < (s.store a).deadline →
        ttlArmedB s.spec (s.store a).state = true) :
    (handleClockTick s).2 = none
    ∧ (handleClockTick s).1.now = s.now + 1
    ∧ (handleClockTick s).1.queue
        = s.queue.filter (fun i => decide (s.now + 1 < (s.store i).deadline))
    ∧ (handleClockTick s).1.raised
        = s.raised ++ (s.queue.filter (fun i =>
            decide ((s.store i).deadline ≤ s.now + 1)
              && decide (0 < (s.store i).deadline))).map
            (fun i => ⟨i, ttlRaise s.spec (s.store i).state, none⟩)
    ∧ (∀ a ∈ s.queue, (s.store a).deadline ≤ s.now + 1 →
        ((handleClockTick s).1.store a).deadline = -1
          ∧ ((handleClockTick s).1.store a).index = -1) := by
  have D := drain_run s.spec (s.now + 1) s.queue s.store s.raised h1 hs hq
  obtain ⟨d1, d2, d3, d4, d5, d6⟩ := D
  exact ⟨d1, rfl, d2, d3, d4⟩

theorem claim_C3_witness :
    sT.queue.Nodup
    ∧ sT.queue.Pairwise (fun a b => (sT.store a).deadline ≤ (sT.store b).deadline)
    ∧ (∀ a ∈ sT.queue, 0 < (sT.store a).deadline →
        ttlArmedB sT.spec (sT.store a).state = true)
    ∧ ((handleClockTick sT).2 = none
      ∧ (handleClockTick sT).1.now = sT.now + 1
      ∧ (handleClockTick sT).1.queue
          = sT.queue.filter (fun i => decide (sT.now + 1 < (sT.store i).deadline))
      ∧ (handleClockTick sT).1.raised
          = sT.raised ++ (sT.queue.filter (fun i =>
              decide ((sT.store i).deadline ≤ sT.now + 1)
                && decide (0 < (sT.store i).deadline))).map
              (fun i => ⟨i, ttlRaise sT.spec (sT.store i).state, none⟩)
      ∧ (∀ a ∈ sT.queue, (sT.store a).deadline ≤ sT.now + 1 →
          ((handleClockTick sT).1.store a).deadline = -1
            ∧ ((handleClockTick sT).1.store a).index = -1)) :=
  ⟨by decide, by decide, by decide,
   claim_C3_clock_tick sT (by decide) (by decide) (by decide)⟩

/-- C7: in a configuration satisfying the queue invariant, an instance
with a positive deadline is in the deadline queue iff its heap index is
nonnegative, a queued instance's state always has a positive TTL (so a
TTL-0 state is never queued), and the invariant is preserved by
allocation, by event handling targeting an allocated instance, and by
clock-tick handling. -/
theorem claim_C7_queue_invariant (s : RState) (h : Qinv s) :
    (∀ id, 0 < (s.store id).deadline →
      (id ∈ s.queue ↔ 0 ≤ (s.store id).index))
    ∧ (∀ id ∈ s.queue, ttlPosB s.spec (s.store id).state = true)
    ∧ (∀ initial, Qinv (alloc s initial).1)
    ∧ (∀ id ev, id < s.next → Qinv (handleEvent s id ev).1)
    ∧ Qinv (handleClockTick s).1 := by
  obtain ⟨h1, h2, h3, h4⟩ := h
  refine ⟨?_, ?_, ?_, ?_, ?_⟩
  · intro id hdl
    constructor
    · intro hm
      exact (h3 id hm).1
    · intro hix
      by_contra hnm
      have := h4 id hnm
      omega
  · intro id hm
    exact (h3 id hm).2.2
  · intro initial
    exact alloc_qinv initial ⟨h1, h2, h3, h4⟩
  · intro id ev hid
    exact handleEvent_qinv ⟨h1, h2, h3, h4⟩ hid
  · exact handleClockTick_qinv ⟨h1, h2, h3, h4⟩

theorem claim_C7_witness :
    Qinv sQ
    ∧ ((∀ id, 0 < (sQ.store id).deadline →
          (id ∈ sQ.queue ↔ 0 ≤ (sQ.store id).index))
      ∧ (∀ id ∈ sQ.queue, ttlPosB sQ.spec (sQ.store id).state = true)
      ∧ (∀ initial, Qinv (alloc sQ initial).1)
      ∧ (∀ id ev, id < sQ.next → Qinv (handleEvent sQ id ev).1)
      ∧ Qinv (handleClockTick sQ).1) := by
  have hq : Qinv sQ := by
    refine ⟨by decide, by decide, by decide, ?_⟩
    intro j hj
    have hne : j ≠ 1 := by
      intro he
      subst he
      exact hj (by decide)
    show ((if j = 1 then instT1 else ({} : Inst))).index = -1
    rw [if_neg hne]
  exact ⟨hq, claim_C7_queue_invariant sQ hq⟩

/-- C10: when the flap threshold is reached while handling an event, the
handler returns (no error) before the data-attachment step: the event's
attached data is discarded, the instance's state, visit counters,
deadline and heap index are unchanged, the queue and error channel are
untouched, and the only effect besides the flap-log update is the
internally raised flap signal posted to the transaction channel. -/
theorem claim_C10_flap_frame (s : RState) (id : ID) (ev : Event)
    (next : Fsm.Index) (action : Option Action) (limit : Flap)
    (htr : s.spec.transition (s.store id).state ev.signal = .ok (next, action))
    (hfl : s.spec.flap (s.store id).state next = some limit)
    (hc : 0 < limit.Count)
    (hth : limit.Count ≤
      ((((flapRecord s id (s.store id).state next).store id).flaps.count
          (s.store id).state next : Int)))
    (hsig : limit.Raise ∈ s.spec.signals) :
    (handleEvent s id ev).2 = none
    ∧ ((handleEvent s id ev).1.store id).data = (s.store id).data
    ∧ ((handleEvent s id ev).1.store id).state = (s.store id).state
    ∧ ((handleEvent s id ev).1.store id).visits = (s.store id).visits
    ∧ ((handleEvent s id ev).1.store id).deadline = (s.store id).deadline
    ∧ ((handleEvent s id ev).1.store id).index = (s.store id).index
    ∧ (handleEvent s id ev).1.queue = s.queue
    ∧ (handleEvent s id ev).1.errorsOut = s.errorsOut
    ∧ (handleEvent s id ev).1.raised = s.raised ++ [⟨id, limit.Raise, none⟩] := by
  rw [handleEvent_halt htr hfl hc hth]
  have hsigF : limit.Raise ∈ (flapRecord s id (s.store id).state next).spec.signals :=
    hsig
  rw [raise, if_pos hsigF]
  dsimp only
  have hrec : (flapRecord s id (s.store id).state next).store id
      = { s.store id with
          flaps := (s.store id).flaps.record (s.store id).state next } := by
    rw [flapRecord]
    dsimp only
    rw [setInst_same]
  rw [hrec]
  exact ⟨rfl, rfl, rfl, rfl, rfl, rfl, rfl, rfl, rfl⟩

theorem claim_C10_witness :
    sF.spec.transition (sF.store 0).state (5 : Signal) = .ok (1, none)
    ∧ sF.spec.flap (sF.store 0).state 1 = some flapF
    ∧ (0 : Int) < flapF.Count
    ∧ (flapF.Count ≤
        ((((flapRecord sF 0 (sF.store 0).state 1).store 0).flaps.count
            (sF.store 0).state 1 : Int)))
    ∧ flapF.Raise ∈ sF.spec.signals
    ∧ ((handleEvent sF 0 ⟨0, 5, some 42⟩).2 = none
      ∧ ((handleEvent sF 0 ⟨0, 5, some 42⟩).1.store 0).data = (sF.store 0).data
      ∧ ((handleEvent sF 0 ⟨0, 5, some 42⟩).1.store 0).state = (sF.store 0).state
      ∧ ((handleEvent sF 0 ⟨0, 5, some 42⟩).1.store 0).visits = (sF.store 0).visits
      ∧ ((handleEvent sF 0 ⟨0, 5, some 42⟩).1.store 0).deadline
          = (sF.store 0).deadline
      ∧ ((handleEvent sF 0 ⟨0, 5, some 42⟩).1.store 0).index = (sF.store 0).index
      ∧ (handleEvent sF 0 ⟨0, 5, some 42⟩).1.queue = sF.queue
      ∧ (handleEvent sF 0 ⟨0, 5, some 42⟩).1.errorsOut = sF.errorsOut
      ∧ (handleEvent sF 0 ⟨0, 5, some 42⟩).1.raised
          = sF.raised ++ [⟨0, flapF.Raise, none⟩]) :=
  ⟨rfl, by decide, by decide, by decide, by decide,
   claim_C10_flap_frame sF 0 ⟨0, 5, some 42⟩ 1 none flapF
     rfl (by decide) (by decide) (by decide) (by decide)⟩

/-- C4 counterexample: a compiled Flap record whose raise signal (999)
is not among the Spec's known signals: the threshold is reached on this
event, yet the raise posts nothing to the transaction channel (the
`UnknownSignal` result of `raise` is discarded by the handler), so no
flap signal is raised — refuting the claim as stated. -/
theorem claim_C4_counterexample :
    spec4base.compileFlapping [flap4] = .ok spec4
    ∧ spec4.flap 0 1 = some flap4
    ∧ (0 : Int) < flap4.Count
    ∧ (flap4.Count ≤
        ((((flapRecord s4 0 (s4.store 0).state 1).store 0).flaps.count
            (s4.store 0).state 1 : Int)))
    ∧ (handleEvent s4 0 ⟨0, 5, none⟩).1.raised = []
    ∧ (handleEvent s4 0 ⟨0, 5, none⟩).2 = none := by
  refine ⟨rfl, by decide, by decide, by decide, by decide, rfl⟩

/-- C4 (amended): for every event whose (current, next) pair has a
compiled Flap record with Count > 0, the handler records the oscillation
in the instance's flap log; provided the flap's configured raise signal
is among the Spec's known signals, exactly when the recorded count has
reached the threshold the flap's signal is raised as an internal
transaction and the handler returns without completing the transition,
while below the threshold the handler proceeds with the ordinary
transition (the data/action/deadline/visit steps on the recorded state)
and the flap mechanism raises nothing. -/
theorem claim_C4_flap_threshold (s : RState) (id : ID) (ev : Event)
    (next : Fsm.Index) (action : Option Action) (limit : Flap)
    (htr : s.spec.transition (s.store id).state ev.signal = .ok (next, action))
    (hfl : s.spec.flap (s.store id).state next = some limit)
    (hc : 0 < limit.Count)
    (hsig : limit.Raise ∈ s.spec.signals) :
    (limit.Count ≤
        ((((flapRecord s id (s.store id).state next).store id).flaps.count
            (s.store id).state next : Int)) →
      (handleEvent s id ev).2 = none
        ∧ (handleEvent s id ev).1.raised = s.raised ++ [⟨id, limit.Raise, none⟩]
        ∧ ((handleEvent s id ev).1.store id).state = (s.store id).state
        ∧ ((handleEvent s id ev).1.store id).flaps
            = (s.store id).flaps.record (s.store id).state next)
    ∧ (((((flapRecord s id (s.store id).state next).store id).flaps.count
            (s.store id).state next : Int)) < limit.Count →
      handleEvent s id ev
        = postFlap (flapRecord s id (s.store id).state next) id ev
            (s.store id).state next action) := by
  constructor
  · intro hth
    rw [handleEvent_halt htr hfl hc hth]
    have hsigF : limit.Raise
        ∈ (flapRecord s id (s.store id).state next).spec.signals := hsig
    rw [raise, if_pos hsigF]
    dsimp only
    have hrec : (flapRecord s id (s.store id).state next).store id
        = { s.store id with
            flaps := (s.store id).flaps.record (s.store id).state next } := by
      rw [flapRecord]
      dsimp only
      rw [setInst_same]
    rw [hrec]
    exact ⟨rfl, rfl, rfl, rfl⟩
  · intro hlt
    have hnh : flapHalts s id (s.store id).state next = false := by
      rw [flapHalts, hfl]
      dsimp only
      rw [if_pos hc]
      exact decide_eq_false (not_le.mpr hlt)
    rw [handleEvent_fallthrough htr hnh]
    simp only [flapBase, hfl]
    rw [if_pos hc]

theorem claim_C4_witness :
    sF.spec.transition (sF.store 0).state (5 : Signal) = .ok (1, none)
    ∧ sF.spec.flap (sF.store 0).state 1 = some flapF
    ∧ (0 : Int) < flapF.Count
    ∧ flapF.Raise ∈ sF.spec.signals
    ∧ ((flapF.Count ≤
          ((((flapRecord sF 0 (sF.store 0).state 1).store 0).flaps.count
              (sF.store 0).state 1 : Int))) →
        (handleEvent sF 0 ⟨0, 5, none⟩).2 = none
          ∧ (handleEvent sF 0 ⟨0, 5, none⟩).1.raised
              = sF.raised ++ [⟨0, flapF.Raise, none⟩]
          ∧ ((handleEvent sF 0 ⟨0, 5, none⟩).1.store 0).state = (sF.store 0).state
          ∧ ((handleEvent sF 0 ⟨0, 5, none⟩).1.store 0).flaps
              = (sF.store 0).flaps.record (sF.store 0).state 1)
    ∧ (((((flapRecord sF 0 (sF.store 0).state 1).store 0).flaps.count
            (sF.store 0).state 1 : Int)) < flapF.Count →
        handleEvent sF 0 ⟨0, 5, none⟩
          = postFlap (flapRecord sF 0 (sF.store 0).state 1) 0 ⟨0, 5, none⟩
              (sF.store 0).state 1 none) :=
  ⟨rfl, by decide, by decide, by decide,
   (claim_C4_flap_threshold sF 0 ⟨0, 5, none⟩ 1 none flapF
     rfl (by decide) (by decide) (by decide)).1,
   (claim_C4_flap_threshold sF 0 ⟨0, 5, none⟩ 1 none flapF
     rfl (by decide) (by decide) (by decide)).2⟩

end Fsm
